import Mathlib

/-!
# m2agent `server/server.go`: authentication gates, asset resolution, bootstrap

A shallow embedding of the request gates (`sessionAuthMiddleware`,
`uniAuthMiddleware`, `parseAuthBasicHeader`), of the catch-all asset resolver
(`NoRoute`) and of the start-up sequence (`Start`) of `server/server.go`,
together with the Go standard-library functions they call
(`strings.SplitN`, `strings.TrimSpace`, `strings.ToLower`,
`strings.HasPrefix`, `base64.StdEncoding`, `filepath.Clean`, `filepath.Join`,
`strconv.Atoi`, `flag`).

Go strings are byte sequences; they are modelled as lists of natural numbers,
a byte being a number below 256.
-/

set_option linter.dupNamespace false

deriving instance DecidableEq for Except

namespace Server

/-- A Go string: its bytes, in order. -/
abbrev Bytes := List Nat

/-- The bytes of an ASCII literal. -/
def ascii (s : String) : Bytes := s.toList.map Char.toNat

/-- A string all of whose elements are bytes. -/
def IsBytes (s : Bytes) : Prop := ∀ b ∈ s, b < 256

instance (s : Bytes) : Decidable (IsBytes s) := by
  unfold IsBytes; infer_instance

/-! ## package strings -/

/-- Split at the first occurrence of the one-byte separator `sep`
(`strings.Cut`, or `strings.Index` followed by the two slicings). -/
def cut (sep : Nat) : Bytes → Option (Bytes × Bytes)
  | [] => none
  | c :: t =>
    if c = sep then some ([], t)
    else match cut sep t with
      | none => none
      | some (a, b) => some (c :: a, b)

/-- The call `strings.SplitN(s, sep, 2)` for a one-byte separator: the text
before and the text after the first separator, or `s` alone when there is no
separator. -/
def SplitN2 (s : Bytes) (sep : Nat) : List Bytes :=
  match cut sep s with
  | none => [s]
  | some (a, b) => [a, b]

/-- UTF-8 encodings of the runes for which `unicode.IsSpace` holds:
tab, LF, VT, FF, CR, space, U+0085, U+00A0, U+1680, U+2000..U+200A, U+2028,
U+2029, U+202F, U+205F, U+3000. -/
def spaceRunes : List Bytes :=
  [[9], [10], [11], [12], [13], [32],
   [0xC2, 0x85], [0xC2, 0xA0], [0xE1, 0x9A, 0x80],
   [0xE2, 0x80, 0x80], [0xE2, 0x80, 0x81], [0xE2, 0x80, 0x82], [0xE2, 0x80, 0x83],
   [0xE2, 0x80, 0x84], [0xE2, 0x80, 0x85], [0xE2, 0x80, 0x86], [0xE2, 0x80, 0x87],
   [0xE2, 0x80, 0x88], [0xE2, 0x80, 0x89], [0xE2, 0x80, 0x8A],
   [0xE2, 0x80, 0xA8], [0xE2, 0x80, 0xA9], [0xE2, 0x80, 0xAF],
   [0xE2, 0x81, 0x9F], [0xE3, 0x80, 0x80]]

/-- The white-space rune that `s` starts with, if any. -/
def leadingSpace (s : Bytes) : Option Bytes :=
  spaceRunes.find? (fun e => e.isPrefixOf s)

/-- The white-space rune that `s` ends with, if any. -/
def trailingSpace (s : Bytes) : Option Bytes :=
  spaceRunes.find? (fun e => e.reverse.isPrefixOf s.reverse)

/-- Drop leading white-space runes, at most `fuel` of them. -/
def trimLeftLoop : Nat → Bytes → Bytes
  | 0, s => s
  | fuel + 1, s =>
    match leadingSpace s with
    | none => s
    | some e => trimLeftLoop fuel (s.drop e.length)

/-- Drop trailing white-space runes, at most `fuel` of them. -/
def trimRightLoop : Nat → Bytes → Bytes
  | 0, s => s
  | fuel + 1, s =>
    match trailingSpace s with
    | none => s
    | some e => trimRightLoop fuel (s.take (s.length - e.length))

/-- The function `strings.TrimSpace`: all leading and trailing white space
(as defined by Unicode) removed.  Every rune removed is at least one byte
long, so `s.length` rounds suffice on each side. -/
def TrimSpace (s : Bytes) : Bytes :=
  let l := trimLeftLoop s.length s
  trimRightLoop l.length l

/-- The function `strings.HasPrefix`. -/
def HasPrefix (s pre : Bytes) : Bool := pre.isPrefixOf s

/-- Lower-casing of one ASCII byte. -/
def lowerByte (c : Nat) : Nat := if 65 ≤ c ∧ c ≤ 90 then c + 32 else c

/-- The function `strings.ToLower`.  An all-ASCII string takes the fast path
(`A`..`Z` shifted to `a`..`z`); any other string is mapped rune by rune with
`unicode.ToLower`, which is the parameter `mapLower`. -/
def ToLower (mapLower : Bytes → Bytes) (s : Bytes) : Bytes :=
  if s.all (fun c => c < 128) then s.map lowerByte else mapLower s

/-! ## package encoding/base64, `StdEncoding` -/

/-- The standard alphabet. -/
def encodeStd : Bytes :=
  ascii "ABCDEFGHIJKLMNOPQRSTUVWXYZabcdefghijklmnopqrstuvwxyz0123456789+/"

/-- The alphabet character of a 6-bit value. -/
def encodeChar (v : Nat) : Nat := encodeStd.getD v 0

/-- The table `decodeMap`: the 6-bit value of an alphabet character, nothing
(0xFF in Go) for any other byte. -/
def decodeMap (c : Nat) : Option Nat :=
  let i := encodeStd.indexOf c
  if i < 64 then some i else none

/-- The method `StdEncoding.EncodeToString`: three bytes become four
characters; a final group of one or two bytes is padded with `=`. -/
def EncodeToString : Bytes → Bytes
  | b0 :: b1 :: b2 :: rest =>
    let val := b0 * 65536 + b1 * 256 + b2
    encodeChar (val / 262144 % 64) :: encodeChar (val / 4096 % 64) ::
      encodeChar (val / 64 % 64) :: encodeChar (val % 64) :: EncodeToString rest
  | [b0, b1] =>
    let val := b0 * 65536 + b1 * 256
    [encodeChar (val / 262144 % 64), encodeChar (val / 4096 % 64),
     encodeChar (val / 64 % 64), 61]
  | [b0] =>
    let val := b0 * 65536
    [encodeChar (val / 262144 % 64), encodeChar (val / 4096 % 64), 61, 61]
  | [] => []

/-- Skip over `\n` and `\r`, starting at index `si`; the result is the rest of
the input and its index. -/
def skipNewlines : Bytes → Nat → Bytes × Nat
  | c :: t, si => if c = 10 ∨ c = 13 then skipNewlines t (si + 1) else (c :: t, si)
  | [], si => ([], si)

/-- The three bytes of a quantum of four 6-bit values. -/
def quantumBytes (d0 d1 d2 d3 : Nat) : Bytes :=
  let val := d0 * 262144 + d1 * 4096 + d2 * 64 + d3
  [val / 65536 % 256, val / 256 % 256, val % 256]

/-- The decoding loop of `Encoding.Decode` (`decodeQuantum` repeated): `src` is
the input still to read, `si` its index in the whole input, `dbuf` the 6-bit
values of the current quantum.  Newlines are skipped, padding ends the input,
the trailing bits of a padded quantum are not checked (the encoding is not
strict).  An error is the offset of a `CorruptInputError`. -/
def decodeLoop : Bytes → Nat → List Nat → Except Nat Bytes
  | [], si, dbuf => if dbuf = [] then .ok [] else .error (si - dbuf.length)
  | c :: src, si, dbuf =>
    match decodeMap c with
    | some out =>
      match dbuf with
      | [d0, d1, d2] =>
        match decodeLoop src (si + 1) [] with
        | .ok rest => .ok (quantumBytes d0 d1 d2 out ++ rest)
        | .error e => .error e
      | _ => decodeLoop src (si + 1) (dbuf ++ [out])
    | none =>
      if c = 10 ∨ c = 13 then decodeLoop src (si + 1) dbuf
      else if c ≠ 61 then .error si
      else match dbuf with
        | [d0, d1] =>
          match skipNewlines src (si + 1) with
          | ([], sj) => .error sj
          | (p :: src2, sj) =>
            if p ≠ 61 then .error (sj - 1)
            else match skipNewlines src2 (sj + 1) with
              | ([], _) => .ok ((quantumBytes d0 d1 0 0).take 1)
              | (_ :: _, sk) => .error sk
        | [d0, d1, d2] =>
          match skipNewlines src (si + 1) with
          | ([], _) => .ok ((quantumBytes d0 d1 d2 0).take 2)
          | (_ :: _, sk) => .error sk
        | _ => .error si

/-- The method `StdEncoding.DecodeString`. -/
def DecodeString (s : Bytes) : Except Nat Bytes := decodeLoop s 0 []

/-- The text of `base64.CorruptInputError(n).Error()`. -/
def corruptInputError (n : Nat) : Bytes :=
  ascii "illegal base64 data at input byte " ++ ascii (toString n)

/-! ## package path/filepath (Unix) -/

/-- The inner loop of the `..` case of `Clean`: from index `w`, move left
while `w > dotdot` and `out[w]` is not a slash. -/
def backUp (out : Bytes) (dotdot : Nat) : Nat → Nat
  | 0 => 0
  | w + 1 => if w + 1 > dotdot ∧ out.getD (w + 1) 0 ≠ 47 then backUp out dotdot w else w + 1

/-- The main loop of `filepath.Clean`: `path` is the input from index `r` on,
`out` the output buffer (`out.w` is its length), `dotdot` the index where `..`
must stop.  Every round reads at least one byte, so `fuel` bounds the rounds. -/
def cleanLoop (rooted : Bool) : Nat → Bytes → Bytes → Nat → Bytes
  | 0, _, out, _ => out
  | fuel + 1, path, out, dotdot =>
    match path with
    | [] => out
    | c :: rest =>
      if c = 47 then
        -- empty path element
        cleanLoop rooted fuel rest out dotdot
      else if c = 46 ∧ (rest = [] ∨ rest.head? = some 47) then
        -- . element
        cleanLoop rooted fuel rest out dotdot
      else if c = 46 ∧ rest.head? = some 46 ∧ (rest.tail = [] ∨ rest.tail.head? = some 47) then
        -- .. element: remove to last separator
        if out.length > dotdot then
          cleanLoop rooted fuel rest.tail (out.take (backUp out dotdot (out.length - 1))) dotdot
        else if !rooted then
          let out2 := (if out.length > 0 then out ++ [47] else out) ++ [46, 46]
          cleanLoop rooted fuel rest.tail out2 out2.length
        else cleanLoop rooted fuel rest.tail out dotdot
      else
        -- real path element: add slash if needed, copy element
        let out2 :=
          if (rooted = true ∧ out.length ≠ 1) ∨ (rooted = false ∧ out.length ≠ 0) then out ++ [47]
          else out
        cleanLoop rooted fuel (path.dropWhile (fun b => b != 47))
          (out2 ++ path.takeWhile (fun b => b != 47)) dotdot

/-- The function `filepath.Clean` on Unix. -/
def Clean (path : Bytes) : Bytes :=
  match path with
  | [] => [46]
  | c :: rest =>
    let rooted : Bool := c = 47
    let out :=
      if rooted then cleanLoop rooted path.length rest [47] 1
      else cleanLoop rooted path.length path [] 0
    if out.length = 0 then [46] else out

/-- The function `filepath.Join` on Unix: leading empty elements are ignored,
the others are joined with slashes and the result is cleaned. -/
def Join (elem : List Bytes) : Bytes :=
  match elem.dropWhile (fun e => e.isEmpty) with
  | [] => []
  | e :: es => Clean ([47].intercalate (e :: es))

/-- Fields of `v` between separators, empty fields included. -/
def splitBy (isSep : Nat → Bool) : Bytes → List Bytes
  | [] => [[]]
  | c :: rest =>
    if isSep c then [] :: splitBy isSep rest
    else match splitBy isSep rest with
      | [] => [[c]]
      | f :: fs => (c :: f) :: fs

/-- The test `containsDotDot` of `net/http`: some element of `v` between
slashes or backslashes is `..`. -/
def containsDotDot (v : Bytes) : Bool :=
  (splitBy (fun c => c = 47 ∨ c = 92) v).any (fun ent => ent = [46, 46])

/-! ## `server/server.go`: the gates -/

/-- Outcome of a Go function: a normal return, or a run-time panic with its
message. -/
inductive Go (α : Type) where
  | ret (a : α)
  | panic (msg : Bytes)
deriving DecidableEq

/-- A Go `error`: nil, or the text of `Error()`. -/
abbrev GoError := Option Bytes

/-- Status code `http.StatusOK`. -/
def StatusOK : Nat := 200

/-- Status code `http.StatusUnauthorized`. -/
def StatusUnauthorized : Nat := 401

/-- The response envelope `Result`.  The field `Result` is an `interface{}`
tagged `omitempty`; this file stores nothing in it (`none`, the nil
interface) or a string. -/
structure Result where
  Error : Bool
  Message : Bytes
  Result : Option Bytes
deriving DecidableEq

/-- Names of the JSON fields that `encoding/json` writes for an envelope:
`result` is omitted exactly when the interface value is nil. -/
def jsonFields (r : Result) : List String :=
  match r.Result with
  | none => ["error", "message"]
  | some _ => ["error", "message", "result"]

/-- An embedded asset (`assets.File`): its path in the bundle and its bytes. -/
structure File where
  Path : Bytes
  Data : Bytes
deriving DecidableEq

/-- What a handler does, in order: calls of the two helpers of the gate, the
responses written through the `gin.Context`, `Abort`, `Next` (the downstream
handlers run), or a run-time panic that ends the handler (the `gin.Recovery`
middleware installed in `Run` then answers 500). -/
inductive Event where
  | parseAuthBasicHeader (header : Bytes)
  | authenticateUser (username password : Bytes)
  | JSON (code : Nat) (obj : Result)
  | HTML (code : Nat) (name : Bytes)
  | File (filepath : Bytes)
  | ServeContent (name : Bytes) (file : File)
  | Abort
  | Next
  | panic (msg : Bytes)
deriving DecidableEq

/-- The part of the request that the handlers read: `URL.Path` and the two
headers as `Header.Get` returns them (empty when absent). -/
structure Request where
  Path : Bytes
  Authorization : Bytes
  ContentType : Bytes
deriving DecidableEq

/-- The part of a `gin.Context` that the gates read: the request, and
`session.Get("username")`, nil or a string. -/
structure Context where
  Request : Request
  username : Option Bytes
deriving DecidableEq

/-- The function `parseAuthBasicHeader`. -/
def parseAuthBasicHeader (header : Bytes) : Go (Bytes × Bytes × GoError) :=
  let auth := SplitN2 header 32
  match auth[0]? with
  | none => .panic (ascii "runtime error: index out of range [0] with length 0")
  | some auth0 =>
    let authType := TrimSpace auth0
    if authType ≠ ascii "Basic" then
      .ret ([], [], some (ascii "authentification type is different from basic"))
    else
      match auth[1]? with
      | none => .panic (ascii "runtime error: index out of range [1] with length 1")
      | some auth1 =>
        let authPair := TrimSpace auth1
        match DecodeString authPair with
        | .error n => .ret ([], [], some (corruptInputError n))
        | .ok pairEncoded =>
          let pair := SplitN2 pairEncoded 58
          if pair.length < 2 then
            .ret ([], [], some (ascii "wrong authentification pair"))
          else
            let login := TrimSpace (pair.getD 0 [])
            let pass := TrimSpace (pair.getD 1 [])
            if login.length = 0 then
              .ret ([], [], some (ascii "autentification username is null"))
            else if pass.length = 0 then
              .ret ([], [], some (ascii "autentification password is null"))
            else .ret (login, pass, none)

/-- The method `Server.authenticateUser`; `Check` is `userModel.Check` on the
user record built from the two strings. -/
def authenticateUser (Check : Bytes → Bytes → GoError) (username password : Bytes) : Bool :=
  match Check username password with
  | some _ => false
  | none => true

/-- The method `Server.sessionAuthMiddleware`. -/
def sessionAuthMiddleware (context : Context) : List Event :=
  match context.username with
  | none =>
    [.JSON StatusUnauthorized ⟨true, ascii "wrong session autentification", some []⟩, .Abort]
  | some username =>
    if username.length = 0 then
      [.JSON StatusUnauthorized ⟨true, ascii "wrong session autentification", some []⟩, .Abort]
    else [.Next]

/-- The method `Server.uniAuthMiddleware`. -/
def uniAuthMiddleware (Check : Bytes → Bytes → GoError) (context : Context) : List Event :=
  if context.username.any (fun username => username.length > 0) then [.Next]
  else
    let authHeader := context.Request.Authorization
    match parseAuthBasicHeader authHeader with
    | .panic msg => [.parseAuthBasicHeader authHeader, .panic msg]
    | .ret (_, _, some err) =>
      [.parseAuthBasicHeader authHeader,
       .JSON StatusUnauthorized ⟨true, ascii "parse auth header error: " ++ err, some []⟩,
       .Abort]
    | .ret (userName, password, none) =>
      if !authenticateUser Check userName password then
        [.parseAuthBasicHeader authHeader, .authenticateUser userName password,
         .JSON StatusUnauthorized ⟨true, ascii "wrong basic authorization", some []⟩,
         .Abort]
      else
        [.parseAuthBasicHeader authHeader, .authenticateUser userName password, .Next]

/-! ## `server/server.go`: the catch-all route -/

/-- The fields of `config.Config` that this file reads. -/
structure Config where
  Port : Int
  Debug : Bool
  Devel : Bool
  User : Bytes
  LibDir : Bytes
  PidPath : Bytes
  MessageLogPath : Bytes
  StoreDir : Bytes
deriving DecidableEq

/-- The two answers of `NoRoute` to a miss. -/
def wrongUri (contentType : Bytes) (abort : Bool) : List Event :=
  if contentType = ascii "application/json" then
    [Event.JSON StatusOK ⟨true, ascii "wrong uri", none⟩] ++ (if abort then [Event.Abort] else [])
  else [Event.HTML StatusOK (ascii "index.html")]

/-- The method `Server.NoRoute`.  `files` is the embedded asset map
(`this.files`, a missing key gives nil), `FileExists` is `tools.FileExists`,
`mapLower` the non-ASCII branch of `strings.ToLower`. -/
def NoRoute (config : Config) (files : Bytes → Option File) (FileExists : Bytes → Bool)
    (mapLower : Bytes → Bytes) (context : Context) : List Event :=
  let requestPath := context.Request.Path
  let contentType := ToLower mapLower context.Request.ContentType
  if config.Devel then
    let publicDir := Join [config.LibDir, ascii "public"]
    let filePath := Clean (Join [publicDir, requestPath])
    if !HasPrefix filePath publicDir then wrongUri contentType false
    else if !FileExists filePath then wrongUri contentType false
    else [Event.File filePath]
  else
    match files (Join [ascii "/public", requestPath]) with
    | none => wrongUri contentType true
    | some file => [Event.ServeContent requestPath file]

/-- The file that a call `context.File(name)` can send to the client.  In gin
`Context.File` is `http.ServeFile(writer, request, name)`, and `ServeFile`, as a
precaution, answers 400 "invalid URL path" and opens nothing when the URL path
of the request has a `..` element (`containsDotDot`); otherwise it answers
from `name`: the file, for a directory its `index.html` or its listing, a
redirect, or an error. -/
def ServeFile (urlPath name : Bytes) : Option Bytes :=
  if containsDotDot urlPath then none else some name

/-- The files on disk that a run of a handler serves to the client. -/
def servedFiles (urlPath : Bytes) (events : List Event) : List Bytes :=
  events.filterMap (fun e =>
    match e with
    | Event.File name => ServeFile urlPath name
    | _ => none)

/-! ## packages strconv and flag -/

/-- Value of a non-empty string of decimal digits. -/
def digitsValue : Bytes → Nat → Option Nat
  | [], n => some n
  | c :: t, n => if 48 ≤ c ∧ c ≤ 57 then digitsValue t (n * 10 + (c - 48)) else none

/-- The function `strconv.Atoi` for a 64-bit `int`: an optional sign and
decimal digits.  A syntax error returns 0, a range error the nearest bound.
The text of the error is abbreviated to its cause. -/
def Atoi (s : Bytes) : Int × GoError :=
  let neg : Bool := s.head? = some 45
  let body := if s.head? = some 45 ∨ s.head? = some 43 then s.tail else s
  if body = [] then (0, some (ascii "invalid syntax"))
  else match digitsValue body 0 with
    | none => (0, some (ascii "invalid syntax"))
    | some n =>
      if neg = false ∧ n ≥ 2 ^ 63 then (2 ^ 63 - 1, some (ascii "value out of range"))
      else if neg = true ∧ n > 2 ^ 63 then (-(2 ^ 63), some (ascii "value out of range"))
      else (if neg then -(n : Int) else (n : Int), none)

/-- The function `strconv.ParseBool`. -/
def ParseBool (s : Bytes) : Option Bool :=
  if s ∈ [ascii "1", ascii "t", ascii "T", ascii "TRUE", ascii "true", ascii "True"] then some true
  else if s ∈ [ascii "0", ascii "f", ascii "F", ascii "FALSE", ascii "false", ascii "False"] then
    some false
  else none

/-- The variables that the flags of `Start` point to. -/
inductive Var where
  | optForeground | optPort | optDebug | optDevel | optWrite
deriving DecidableEq

/-- The values of those variables. -/
structure Vars where
  optForeground : Bool
  optPort : Int
  optDebug : Bool
  optDevel : Bool
  optWrite : Bool
deriving DecidableEq

/-- Store a boolean through a pointer. -/
def setBool (p : Var) (b : Bool) (vars : Vars) : Vars :=
  match p with
  | .optForeground => { vars with optForeground := b }
  | .optDebug => { vars with optDebug := b }
  | .optDevel => { vars with optDevel := b }
  | .optWrite => { vars with optWrite := b }
  | .optPort => vars

/-- Store an integer through a pointer. -/
def setInt (p : Var) (n : Int) (vars : Vars) : Vars :=
  match p with
  | .optPort => { vars with optPort := n }
  | _ => vars

/-- The flag set `flag.CommandLine`: the defined flags, each with the variable
it writes, and the variables. -/
structure FlagSet where
  formal : List (Bytes × Var)
  vars : Vars
deriving DecidableEq

/-- The call `flag.BoolVar(p, name, value, usage)`: the default `value` is
stored in `*p` at once and the flag `name` is bound to `p`.  The call
`flag.Bool(name, value, usage)` is `BoolVar` on a fresh variable. -/
def BoolVar (p : Var) (name : Bytes) (value : Bool) (f : FlagSet) : FlagSet :=
  ⟨f.formal ++ [(name, p)], setBool p value f.vars⟩

/-- The call `flag.IntVar(p, name, value, usage)`, and `flag.Int` likewise. -/
def IntVar (p : Var) (name : Bytes) (value : Int) (f : FlagSet) : FlagSet :=
  ⟨f.formal ++ [(name, p)], setInt p value f.vars⟩

/-- Split `name=value` at the first `=` that is not the first byte. -/
def splitValue (name : Bytes) : Bytes × Option Bytes :=
  match name with
  | [] => ([], none)
  | c :: t =>
    match cut 61 t with
    | none => (name, none)
    | some (a, b) => (c :: a, some b)

/-- One step of `flag.Parse`. -/
inductive ParseStep where
  | stop
  | fail
  | next (f : FlagSet) (args : List Bytes)

/-- The method `FlagSet.parseOne`; `ParseInt` is `strconv.ParseInt(s, 0, 64)`. -/
def parseOne (ParseInt : Bytes → Option Int) (f : FlagSet) (args : List Bytes) : ParseStep :=
  match args with
  | [] => .stop
  | s :: rest =>
    if s.length < 2 ∨ s.head? ≠ some 45 then .stop
    else
      let numMinuses := if s.getD 1 0 = 45 then 2 else 1
      if numMinuses = 2 ∧ s.length = 2 then .stop
      else
        let name := s.drop numMinuses
        if name.length = 0 ∨ name.head? = some 45 ∨ name.head? = some 61 then .fail
        else
          match f.formal.lookup (splitValue name).1 with
          | none => .fail
          | some p =>
            if p ≠ Var.optPort then
              match (splitValue name).2 with
              | some v =>
                match ParseBool v with
                | none => .fail
                | some b => .next { f with vars := setBool p b f.vars } rest
              | none => .next { f with vars := setBool p true f.vars } rest
            else
              match (splitValue name).2, rest with
              | some v, _ =>
                match ParseInt v with
                | none => .fail
                | some n => .next { f with vars := setInt p n f.vars } rest
              | none, v :: rest2 =>
                match ParseInt v with
                | none => .fail
                | some n => .next { f with vars := setInt p n f.vars } rest2
              | none, [] => .fail

/-- The loop of `flag.Parse`: `none` when parsing fails (the flag set is
`ExitOnError`: the process ends there). -/
def parseLoop (ParseInt : Bytes → Option Int) : Nat → FlagSet → List Bytes → Option FlagSet
  | 0, f, _ => some f
  | fuel + 1, f, args =>
    match parseOne ParseInt f args with
    | .stop => some f
    | .fail => none
    | .next f2 args2 => parseLoop ParseInt fuel f2 args2

/-- The function `flag.Parse` on the arguments `os.Args[1:]`; every step
consumes an argument. -/
def Parse (ParseInt : Bytes → Option Int) (f : FlagSet) (args : List Bytes) : Option FlagSet :=
  parseLoop ParseInt (args.length + 1) f args

/-! ## `server/server.go`: `Start` -/

/-- The flag definitions of `Start`, in source order. -/
def defineFlags (config : Config) : FlagSet :=
  (⟨[], ⟨false, 0, false, false, false⟩⟩ : FlagSet)
    |> BoolVar .optForeground (ascii "foreground") false
    |> BoolVar .optForeground (ascii "f") false
    |> IntVar .optPort (ascii "port") config.Port
    |> IntVar .optPort (ascii "p") config.Port
    |> BoolVar .optDebug (ascii "debug") config.Debug
    |> BoolVar .optDebug (ascii "d") false
    |> BoolVar .optDevel (ascii "devel") config.Devel
    |> BoolVar .optDebug (ascii "e") false
    |> BoolVar .optWrite (ascii "write") false
    |> BoolVar .optWrite (ascii "w") false

/-- The flag variables after `flag.Parse()`, `none` when parsing ends the
process. -/
def parseFlags (ParseInt : Bytes → Option Int) (config : Config) (args : List Bytes) :
    Option Vars :=
  (Parse ParseInt (defineFlags config) args).map (fun f => f.vars)

/-- The configuration after the three assignments that follow `flag.Parse()`. -/
def flagConfig (ParseInt : Bytes → Option Int) (config : Config) (args : List Bytes) :
    Option Config :=
  (parseFlags ParseInt config args).map (fun v =>
    { config with Port := v.optPort, Debug := v.optDebug, Devel := v.optDevel })

/-- An account, as `user.Lookup` returns it. -/
structure User where
  Uid : Bytes
  Gid : Bytes
deriving DecidableEq

/-- The credentials of the process: real and effective user and group. -/
structure Creds where
  uid : Int
  euid : Int
  gid : Int
  egid : Int
deriving DecidableEq

/-- What `Start` finds outside this file: the configuration read, the command
line, and the outcome of every call of the operating system and of the other
packages, one field for each call in source order.  `Setuid` is the kernel:
from the credentials of the process and the requested uid, the error and the
credentials afterwards.  `ForkProcess` is the exit status when this process
ends inside `daemon.ForkProcess` (the parent), `none` for the process that
goes on. -/
structure World where
  Read : Config
  args : List Bytes
  ParseInt : Bytes → Option Int
  Write : GoError
  ForkProcess : Option Nat
  Lookup : Bytes → Option User
  MkdirAllRun : GoError
  SaveProcessID : GoError
  MkdirAllLog : GoError
  ChownLog : Int → GoError
  MkdirAllStore : GoError
  ChownStore : Int → GoError
  StatStore : GoError
  creds : Creds
  Setuid : Creds → Int → GoError × Creds
  RedirectLog : GoError
  RedirectIO : GoError
  Run : Config → GoError

/-- What `Start` does, in order: calls that return an error value, the two
calls of the privilege drop with their results, the call of `this.Run` with
the configuration and the credentials the process has then, `os.Exit`. -/
inductive StartEvent where
  | Call (name : String) (err : GoError)
  | Setuid (uid : Int) (err : GoError)
  | Getuid (uid : Int)
  | Run (config : Config) (creds : Creds)
  | Exit (code : Nat)
deriving DecidableEq

/-- The pattern `err = call(); if err != nil { log; os.Exit(1) }` followed by
the rest `k` of the function. -/
def orExit (name : String) (err : GoError) (k : List StartEvent) : List StartEvent :=
  match err with
  | some e => [StartEvent.Call name (some e), StartEvent.Exit 1]
  | none => StartEvent.Call name none :: k

/-- The end of `Start`, from the redirection of the log on, with the
credentials the process has there. -/
def startServe (w : World) (config : Config) (optForeground : Bool) (creds : Creds) :
    List StartEvent :=
  orExit "daemon.RedirectLog" w.RedirectLog <|
  (fun k => if !optForeground then orExit "daemon.RedirectIO" w.RedirectIO k else k) <|
  StartEvent.Run config creds ::
    (match w.Run config with
     | some _ => [StartEvent.Exit 1]
     | none => [])

/-- The method `Server.Start`.  A failure of `flag.Parse` ends the process
with status 2. -/
def Start (w : World) : List StartEvent :=
  match parseFlags w.ParseInt w.Read w.args, flagConfig w.ParseInt w.Read w.args with
  | some opt, some config =>
    if opt.optWrite = true then
      match w.Write with
      | some err => [StartEvent.Call "Config.Write" (some err), StartEvent.Exit 1]
      | none => [StartEvent.Call "Config.Write" none, StartEvent.Exit 0]
    else
      match (if !opt.optForeground then w.ForkProcess else none) with
      | some code => [StartEvent.Call "daemon.ForkProcess" none, StartEvent.Exit code]
      | none =>
        match w.Lookup config.User with
        | none => [StartEvent.Call "user.Lookup" (some (ascii "unknown user")), StartEvent.Exit 1]
        | some user =>
          StartEvent.Call "user.Lookup" none ::
          (orExit "os.MkdirAll" w.MkdirAllRun <|
           orExit "daemon.SaveProcessID" w.SaveProcessID <|
           -- uid, err := strconv.Atoi(user.Uid): err is overwritten by the next call
           let uid := (Atoi user.Uid).1
           orExit "os.MkdirAll" w.MkdirAllLog <|
           orExit "os.Chown" (w.ChownLog uid) <|
           orExit "os.MkdirAll" w.MkdirAllStore <|
           orExit "os.Chown" (w.ChownStore uid) <|
           orExit "os.Stat" w.StatStore <|
           if uid ≠ 0 then
             match w.Setuid w.creds uid with
             | (some err, _) => [StartEvent.Setuid uid (some err), StartEvent.Exit 1]
             | (none, creds) =>
               if creds.uid ≠ uid then
                 [StartEvent.Setuid uid none, StartEvent.Getuid creds.uid, StartEvent.Exit 1]
               else
                 StartEvent.Setuid uid none :: StartEvent.Getuid creds.uid ::
                   startServe w config opt.optForeground creds
           else startServe w config opt.optForeground w.creds)
  | _, _ => [StartEvent.Exit 2]

/-! ## Path elements: what `Clean` computes -/

/-- The elements of a path: the non-empty fields between slashes. -/
def elems (path : Bytes) : List Bytes :=
  (splitBy (fun c => c = 47) path).filter (fun e => !e.isEmpty)

/-- The text of `k` elements `..` joined by slashes. -/
def dots : Nat → Bytes
  | 0 => []
  | k + 1 => (if (dots k).length > 0 then dots k ++ [47] else dots k) ++ [46, 46]

/-- The buffer of `Clean` after the element `e` is added to `out`. -/
def pushElem (rooted : Bool) (out e : Bytes) : Bytes :=
  (if (rooted = true ∧ out.length ≠ 1) ∨ (rooted = false ∧ out.length ≠ 0) then out ++ [47]
   else out) ++ e

/-- The buffer of `Clean` that holds `k` leading elements `..` and then the
elements `ns`, the last one first. -/
def outOf (rooted : Bool) (k : Nat) : List Bytes → Bytes
  | [] => if rooted then [47] else dots k
  | e :: ns => pushElem rooted (outOf rooted k ns) e

/-- The index `dotdot` of `Clean` when the buffer holds `k` leading `..`. -/
def dotdotOf (rooted : Bool) (k : Nat) : Nat :=
  if rooted then 1 else (dots k).length

/-- One element processed by `Clean`: `.` is dropped, `..` removes the last
element, or is dropped at the root, or is kept in front of a relative path;
any other element is added. -/
def cleanStep (rooted : Bool) (st : Nat × List Bytes) (e : Bytes) : Nat × List Bytes :=
  if e = [46] then st
  else if e = [46, 46] then
    match st.2 with
    | _ :: ns => (st.1, ns)
    | [] => if rooted then st else (st.1 + 1, [])
  else (st.1, e :: st.2)

/-- A proper path element: not empty, without a slash, neither `.` nor `..`. -/
def IsName (e : Bytes) : Prop := e ≠ [] ∧ 47 ∉ e ∧ e ≠ [46] ∧ e ≠ [46, 46]

/-- The states that the loop of `Clean` goes through. -/
def ValidState (rooted : Bool) (k : Nat) (ns : List Bytes) : Prop :=
  (rooted = true → k = 0) ∧ ∀ e ∈ ns, IsName e

/-! ## The statements of the specification -/

/-- Headers that `parseAuthBasicHeader` takes credentials from. -/
def AcceptedHeader (header : Bytes) : Prop :=
  ∃ tok rest user pass, header = tok ++ 32 :: rest ∧ 32 ∉ tok ∧
    TrimSpace tok = ascii "Basic" ∧
    DecodeString (TrimSpace rest) = .ok (user ++ 58 :: pass) ∧ 58 ∉ user ∧
    TrimSpace user ≠ [] ∧ TrimSpace pass ≠ []

/-- Headers without any space whose text is `Basic` up to white space. -/
def BareScheme (header : Bytes) : Prop :=
  32 ∉ header ∧ TrimSpace header = ascii "Basic"

/-- The header form of the specification: `Basic`, one space, and the
standard base64 encoding of `user:pass` with both parts non-empty. -/
def IsBasicCredentials (header : Bytes) : Prop :=
  ∃ user pass, IsBytes user ∧ IsBytes pass ∧ user ≠ [] ∧ pass ≠ [] ∧
    header = ascii "Basic " ++ EncodeToString (user ++ 58 :: pass)

/-- The privilege drop of the specification: the real and effective user and
group of the process are those of the account. -/
def DroppedTo (creds : Creds) (uid gid : Int) : Prop :=
  creds.uid = uid ∧ creds.euid = uid ∧ creds.gid = gid ∧ creds.egid = gid

/-- A world in which every call succeeds: the process starts as root in the
foreground, the configured user resolves to an account with the given `Uid`
and gid 1000, and `Setuid` sets the real and the effective uid, as the kernel
does for root. -/
def calmWorld (Uid : Bytes) : World where
  Read := ⟨8080, false, false, ascii "agent", [], [], [], []⟩
  args := [ascii "-f"]
  ParseInt := fun _ => none
  Write := none
  ForkProcess := none
  Lookup := fun _ => some ⟨Uid, ascii "1000"⟩
  MkdirAllRun := none
  SaveProcessID := none
  MkdirAllLog := none
  ChownLog := fun _ => none
  MkdirAllStore := none
  ChownStore := fun _ => none
  StatStore := none
  creds := ⟨0, 0, 0, 0⟩
  Setuid := fun c uid => (none, { c with uid := uid, euid := uid })
  RedirectLog := none
  RedirectIO := none
  Run := fun _ => none

/-! ## Lemmas on strings and base64 -/

theorem cut_append (sep : Nat) (a b : Bytes) (h : sep ∉ a) :
    cut sep (a ++ sep :: b) = some (a, b) := by
  induction a with
  | nil => simp [cut]
  | cons c t ih =>
    have hc : c ≠ sep := fun e => h (by simp [e])
    have ht : sep ∉ t := fun e => h (by simp [e])
    simp [cut, hc, ih ht]

theorem cut_eq_some (sep : Nat) (s a b : Bytes) (h : cut sep s = some (a, b)) :
    s = a ++ sep :: b ∧ sep ∉ a := by
  induction s generalizing a with
  | nil => simp [cut] at h
  | cons c t ih =>
    unfold cut at h
    split at h
    · rename_i hc
      simp at h
      obtain ⟨rfl, rfl⟩ := h
      simp [hc]
    · rename_i hc
      split at h
      · simp at h
      · rename_i a2 b2 heq
        simp at h
        obtain ⟨rfl, rfl⟩ := h
        obtain ⟨h1, h2⟩ := ih a2 heq
        refine ⟨by simp [h1], ?_⟩
        simp
        exact ⟨fun e => hc e.symm, h2⟩

theorem cut_eq_none (sep : Nat) (s : Bytes) (h : sep ∉ s) : cut sep s = none := by
  induction s with
  | nil => simp [cut]
  | cons c t ih =>
    have hc : c ≠ sep := fun e => h (by simp [e])
    have ht : sep ∉ t := fun e => h (by simp [e])
    simp [cut, hc, ih ht]

theorem leadingSpace_cons (b : Nat) (t : Bytes) (h1 : 32 < b) (h2 : b < 128) :
    leadingSpace (b :: t) = none := by
  simp [leadingSpace, spaceRunes, List.isPrefixOf]
  omega

theorem trailingSpace_concat (b : Nat) (t : Bytes) (h1 : 32 < b) (h2 : b < 128) :
    trailingSpace (t ++ [b]) = none := by
  simp [trailingSpace, spaceRunes, List.isPrefixOf]
  omega

theorem TrimSpace_of_none (s : Bytes) (h1 : leadingSpace s = none) (h2 : trailingSpace s = none) :
    TrimSpace s = s := by
  unfold TrimSpace
  have e1 : ∀ n, trimLeftLoop n s = s := by
    intro n; cases n <;> simp [trimLeftLoop, h1]
  have e2 : ∀ n, trimRightLoop n s = s := by
    intro n; cases n <;> simp [trimRightLoop, h2]
  simp [e1, e2]


theorem TrimSpace_of_printable (s : Bytes) (h : ∀ c ∈ s, 32 < c ∧ c < 128) : TrimSpace s = s := by
  apply TrimSpace_of_none
  · cases s with
    | nil => simp [leadingSpace, spaceRunes, List.isPrefixOf]
    | cons b t => exact leadingSpace_cons b t (h b (by simp)).1 (h b (by simp)).2
  · rcases List.eq_nil_or_concat s with rfl | ⟨t, b, rfl⟩
    · simp [trailingSpace, spaceRunes, List.isPrefixOf]
    · rw [List.concat_eq_append] at h ⊢
      exact trailingSpace_concat b t (h b (by simp)).1 (h b (by simp)).2

theorem spaceRunes_ne_nil : ∀ e ∈ spaceRunes, e ≠ [] := by
  decide

theorem leadingSpace_some (s e : Bytes) (h : leadingSpace s = some e) :
    0 < e.length ∧ e.length ≤ s.length := by
  unfold leadingSpace at h
  have hm := List.mem_of_find?_eq_some h
  have hp := List.find?_some h
  have hpre : e <+: s := List.isPrefixOf_iff_prefix.mp hp
  exact ⟨List.length_pos.mpr (spaceRunes_ne_nil e hm), hpre.length_le⟩

theorem trailingSpace_some (s e : Bytes) (h : trailingSpace s = some e) :
    0 < e.length ∧ e.length ≤ s.length := by
  unfold trailingSpace at h
  have hm := List.mem_of_find?_eq_some h
  have hp := List.find?_some h
  have hpre : e.reverse <+: s.reverse := List.isPrefixOf_iff_prefix.mp hp
  have := hpre.length_le
  simp only [List.length_reverse] at this
  exact ⟨List.length_pos.mpr (spaceRunes_ne_nil e hm), this⟩

theorem leadingSpace_trimLeftLoop :
    ∀ (n : Nat) (s : Bytes), s.length ≤ n → leadingSpace (trimLeftLoop n s) = none := by
  intro n
  induction n with
  | zero =>
    intro s h
    have : s = [] := List.length_eq_zero.mp (by omega)
    subst this
    decide
  | succ n ih =>
    intro s h
    unfold trimLeftLoop
    cases hl : leadingSpace s with
    | none => simpa using hl
    | some e =>
      have := leadingSpace_some s e hl
      simp only
      apply ih
      rw [List.length_drop]
      omega

theorem trailingSpace_trimRightLoop :
    ∀ (n : Nat) (s : Bytes), s.length ≤ n → trailingSpace (trimRightLoop n s) = none := by
  intro n
  induction n with
  | zero =>
    intro s h
    have : s = [] := List.length_eq_zero.mp (by omega)
    subst this
    decide
  | succ n ih =>
    intro s h
    unfold trimRightLoop
    cases hl : trailingSpace s with
    | none => simpa using hl
    | some e =>
      have := trailingSpace_some s e hl
      simp only
      apply ih
      rw [List.length_take]
      omega

theorem trimRightLoop_initial : ∀ (n : Nat) (s : Bytes), trimRightLoop n s <+: s := by
  intro n
  induction n with
  | zero => intro s; exact List.prefix_refl s
  | succ n ih =>
    intro s
    unfold trimRightLoop
    cases trailingSpace s with
    | none => exact List.prefix_refl s
    | some e => exact (ih _).trans (List.take_prefix _ s)

theorem leadingSpace_of_initial (t s : Bytes) (h : t <+: s) (hs : leadingSpace s = none) :
    leadingSpace t = none := by
  unfold leadingSpace at hs ⊢
  rw [List.find?_eq_none] at hs ⊢
  intro e he hp
  exact hs e he (List.isPrefixOf_iff_prefix.mpr ((List.isPrefixOf_iff_prefix.mp hp).trans h))

/-- The result of `TrimSpace` has no white space at either end. -/
theorem TrimSpace_trimmed (s : Bytes) :
    leadingSpace (TrimSpace s) = none ∧ trailingSpace (TrimSpace s) = none := by
  unfold TrimSpace
  exact ⟨leadingSpace_of_initial _ _ (trimRightLoop_initial _ _)
      (leadingSpace_trimLeftLoop s.length s (Nat.le_refl _)),
    trailingSpace_trimRightLoop _ _ (Nat.le_refl _)⟩

theorem encodeChar_spec : ∀ v, v < 64 →
    decodeMap (encodeChar v) = some v ∧ 32 < encodeChar v ∧ encodeChar v < 128 := by
  decide

theorem EncodeToString_printable (x : Bytes) : ∀ c ∈ EncodeToString x, 32 < c ∧ c < 128 := by
  induction x using EncodeToString.induct with
  | case1 b0 b1 b2 rest ih =>
    intro c hc
    simp only [EncodeToString, List.mem_cons] at hc
    rcases hc with rfl | rfl | rfl | rfl | hc
    · exact (encodeChar_spec _ (Nat.mod_lt _ (by decide))).2
    · exact (encodeChar_spec _ (Nat.mod_lt _ (by decide))).2
    · exact (encodeChar_spec _ (Nat.mod_lt _ (by decide))).2
    · exact (encodeChar_spec _ (Nat.mod_lt _ (by decide))).2
    · exact ih c hc
  | case2 b0 b1 =>
    intro c hc
    simp only [EncodeToString, List.mem_cons, List.mem_singleton] at hc
    rcases hc with rfl | rfl | rfl | rfl | hc
    · exact (encodeChar_spec _ (Nat.mod_lt _ (by decide))).2
    · exact (encodeChar_spec _ (Nat.mod_lt _ (by decide))).2
    · exact (encodeChar_spec _ (Nat.mod_lt _ (by decide))).2
    · decide
    · simp at hc
  | case3 b0 =>
    intro c hc
    simp only [EncodeToString, List.mem_cons, List.mem_singleton] at hc
    rcases hc with rfl | rfl | rfl | rfl | hc
    · exact (encodeChar_spec _ (Nat.mod_lt _ (by decide))).2
    · exact (encodeChar_spec _ (Nat.mod_lt _ (by decide))).2
    · decide
    · decide
    · simp at hc
  | case4 => simp [EncodeToString]

theorem decodeMap_encodeChar (v : Nat) (h : v < 64) : decodeMap (encodeChar v) = some v :=
  (encodeChar_spec v h).1

theorem decodeLoop_EncodeToString (x : Bytes) (hx : IsBytes x) (si : Nat) :
    decodeLoop (EncodeToString x) si [] = .ok x := by
  induction x using EncodeToString.induct generalizing si with
  | case1 b0 b1 b2 rest ih =>
    have h0 : b0 < 256 := hx b0 (by simp)
    have h1 : b1 < 256 := hx b1 (by simp)
    have h2 : b2 < 256 := hx b2 (by simp)
    have hr : IsBytes rest := fun b hb => hx b (by simp [hb])
    simp only [EncodeToString, decodeLoop, decodeMap_encodeChar _ (Nat.mod_lt _ (by decide : 0 < 64)),
      List.nil_append, List.cons_append, ih hr]
    simp only [quantumBytes, List.cons_append, List.nil_append]
    congr 2
    · omega
    · congr 1
      · omega
      · congr 1; omega
  | case2 b0 b1 =>
    have h0 : b0 < 256 := hx b0 (by simp)
    have h1 : b1 < 256 := hx b1 (by simp)
    have e61 : decodeMap 61 = none := by decide
    simp only [EncodeToString, decodeLoop, decodeMap_encodeChar _ (Nat.mod_lt _ (by decide : 0 < 64)),
      List.nil_append, List.cons_append, e61, skipNewlines, quantumBytes]
    simp
    omega
  | case3 b0 =>
    have h0 : b0 < 256 := hx b0 (by simp)
    have e61 : decodeMap 61 = none := by decide
    simp only [EncodeToString, decodeLoop, decodeMap_encodeChar _ (Nat.mod_lt _ (by decide : 0 < 64)),
      List.nil_append, List.cons_append, e61, skipNewlines, quantumBytes]
    simp [skipNewlines]
    omega
  | case4 => simp [EncodeToString, decodeLoop]


theorem not_mem_of_cut_eq_none (sep : Nat) (s : Bytes) (h : cut sep s = none) : sep ∉ s := by
  induction s with
  | nil => simp
  | cons c t ih =>
    unfold cut at h
    split at h
    · simp at h
    · rename_i hc
      split at h
      · rename_i heq
        simp only [List.mem_cons, not_or]
        exact ⟨fun e => hc e.symm, ih heq⟩
      · simp at h

theorem parseAuthBasicHeader_cases (header : Bytes) :
    (BareScheme header ∧ ∃ msg, parseAuthBasicHeader header = .panic msg) ∨
    (∃ err, parseAuthBasicHeader header = .ret ([], [], some err)) ∨
    (∃ tok rest user pass, header = tok ++ 32 :: rest ∧ 32 ∉ tok ∧
      TrimSpace tok = ascii "Basic" ∧
      DecodeString (TrimSpace rest) = .ok (user ++ 58 :: pass) ∧ 58 ∉ user ∧
      TrimSpace user ≠ [] ∧ TrimSpace pass ≠ [] ∧
      parseAuthBasicHeader header = .ret (TrimSpace user, TrimSpace pass, none)) := by
  unfold parseAuthBasicHeader SplitN2
  cases hc : cut 32 header with
  | none =>
    by_cases ht : TrimSpace header = ascii "Basic"
    · left
      exact ⟨⟨not_mem_of_cut_eq_none _ _ hc, ht⟩, by simp [ht]⟩
    · right; left
      simp [ht]
  | some ab =>
    obtain ⟨tok, rest⟩ := ab
    obtain ⟨h1, h2⟩ := cut_eq_some _ _ _ _ hc
    right
    by_cases ht : TrimSpace tok = ascii "Basic"
    · cases hd : DecodeString (TrimSpace rest) with
      | error n => left; simp [ht, hd]
      | ok dec =>
        cases hc2 : cut 58 dec with
        | none => left; simp [ht, hd, hc2]
        | some up =>
          obtain ⟨user, pass⟩ := up
          obtain ⟨h3, h4⟩ := cut_eq_some _ _ _ _ hc2
          by_cases hu : TrimSpace user = []
          · left; simp [ht, hd, hc2, hu]
          · by_cases hp : TrimSpace pass = []
            · left; simp [ht, hd, hc2, hu, hp]
            · right
              refine ⟨tok, rest, user, pass, h1, h2, ht, ?_, h4, hu, hp, ?_⟩
              · rw [hd, h3]
              · simp [ht, hd, hc2, hu, hp]
    · left; simp [ht]


theorem basicPrefix_eq : ascii "Basic " = ascii "Basic" ++ [32] := by decide

theorem parseAuthBasicHeader_encoded (user pass : Bytes) (hub : IsBytes user)
    (hpb : IsBytes pass) (hc : 58 ∉ user) :
    parseAuthBasicHeader (ascii "Basic " ++ EncodeToString (user ++ 58 :: pass)) =
      if (TrimSpace user).length = 0 then
        .ret ([], [], some (ascii "autentification username is null"))
      else if (TrimSpace pass).length = 0 then
        .ret ([], [], some (ascii "autentification password is null"))
      else .ret (TrimSpace user, TrimSpace pass, none) := by
  have hb : IsBytes (user ++ 58 :: pass) := by
    intro b hb
    simp only [List.mem_append, List.mem_cons] at hb
    rcases hb with hb | rfl | hb
    · exact hub b hb
    · decide
    · exact hpb b hb
  have e1 : cut 32 (ascii "Basic " ++ EncodeToString (user ++ 58 :: pass)) =
      some (ascii "Basic", EncodeToString (user ++ 58 :: pass)) := by
    rw [basicPrefix_eq, List.append_assoc]
    exact cut_append 32 _ _ (by decide)
  have e2 : TrimSpace (ascii "Basic") = ascii "Basic" := by decide
  have e3 : TrimSpace (EncodeToString (user ++ 58 :: pass)) = EncodeToString (user ++ 58 :: pass) :=
    TrimSpace_of_printable _ (EncodeToString_printable _)
  have e4 : DecodeString (EncodeToString (user ++ 58 :: pass)) = .ok (user ++ 58 :: pass) :=
    decodeLoop_EncodeToString _ hb 0
  have e5 : cut 58 (user ++ 58 :: pass) = some (user, pass) := cut_append 58 _ _ hc
  unfold parseAuthBasicHeader SplitN2
  simp [e1, e2, e3, e4, e5]

/-- Round trip: for `user` without a colon, `user` and `pass` non-empty and
without white space at either end, the parser returns (`user`, `pass`) from
the header `Basic`, a space, and the base64 encoding of `user:pass`. -/
theorem parseAuthBasicHeader_round_trip (user pass : Bytes) (hub : IsBytes user)
    (hpb : IsBytes pass) (hu : user ≠ []) (hc : 58 ∉ user) (hp : pass ≠ [])
    (l1 : leadingSpace user = none) (t1 : trailingSpace user = none)
    (l2 : leadingSpace pass = none) (t2 : trailingSpace pass = none) :
    parseAuthBasicHeader (ascii "Basic " ++ EncodeToString (user ++ 58 :: pass)) =
      Go.ret (user, pass, none) := by
  rw [parseAuthBasicHeader_encoded user pass hub hpb hc, TrimSpace_of_none user l1 t1,
    TrimSpace_of_none pass l2 t2]
  simp [hu, hp]

/-- When the parser returns without an error, both strings are non-empty and
have no white space at either end. -/
theorem parseAuthBasicHeader_trimmed (header login pass : Bytes)
    (h : parseAuthBasicHeader header = Go.ret (login, pass, none)) :
    login ≠ [] ∧ pass ≠ [] ∧ leadingSpace login = none ∧ trailingSpace login = none ∧
      leadingSpace pass = none ∧ trailingSpace pass = none := by
  rcases parseAuthBasicHeader_cases header with
    ⟨-, msg, hm⟩ | ⟨err, he⟩ | ⟨tok, rest, u, p, -, -, -, -, -, h6, h7, hr⟩
  · rw [hm] at h; simp at h
  · rw [he] at h; simp at h
  · rw [hr] at h
    simp only [Go.ret.injEq, Prod.mk.injEq, and_true] at h
    obtain ⟨rfl, rfl⟩ := h
    exact ⟨h6, h7, (TrimSpace_trimmed u).1, (TrimSpace_trimmed u).2, (TrimSpace_trimmed p).1,
      (TrimSpace_trimmed p).2⟩

theorem not_IsBasicCredentials_lenient : ¬ IsBasicCredentials (ascii "Basic  YTpi") := by
  rintro ⟨user, pass, -, -, -, -, h⟩
  have h2 := congrArg (List.drop 6) h
  have e6 : (ascii "Basic ").length = 6 := by decide
  rw [List.drop_left' e6] at h2
  have h3 : (32 : Nat) ∈ EncodeToString (user ++ 58 :: pass) := by
    rw [← h2]; decide
  have := (EncodeToString_printable _ 32 h3).1
  omega

theorem not_IsBasicCredentials_bare : ¬ IsBasicCredentials (ascii "Basic") := by
  rintro ⟨user, pass, -, -, -, -, h⟩
  have h2 := congrArg List.length h
  have e6 : (ascii "Basic ").length = 6 := by decide
  have e5 : (ascii "Basic").length = 5 := by decide
  rw [List.length_append, e6, e5] at h2
  omega

/-! ## Lemmas on `filepath.Clean` -/

theorem splitBy_ne_nil (p : Nat → Bool) (s : Bytes) : splitBy p s ≠ [] := by
  induction s with
  | nil => simp [splitBy]
  | cons c t ih =>
    unfold splitBy
    split
    · simp
    · split <;> simp

theorem splitBy_append (p : Nat → Bool) (a b : Bytes) (sep : Nat) (hs : p sep = true) :
    splitBy p (a ++ sep :: b) = splitBy p a ++ splitBy p b := by
  induction a with
  | nil => simp [splitBy, hs]
  | cons c t ih =>
    simp only [List.cons_append, splitBy, List.append_eq]
    split
    · simp [ih]
    · rw [ih]
      cases h : splitBy p t with
      | nil => exact absurd h (splitBy_ne_nil p t)
      | cons f fs => simp

theorem splitBy_of_not_sep (p : Nat → Bool) (e : Bytes) (h : ∀ c ∈ e, p c = false) :
    splitBy p e = [e] := by
  induction e with
  | nil => simp [splitBy]
  | cons c t ih =>
    have hc : p c = false := h c (by simp)
    have ht := ih (fun d hd => h d (by simp [hd]))
    simp [splitBy, hc, ht]

theorem elems_nil : elems [] = [] := by
  simp [elems, splitBy]

theorem elems_slash (r : Bytes) : elems (47 :: r) = elems r := by
  simp [elems, splitBy]

theorem elems_append (a b : Bytes) : elems (a ++ 47 :: b) = elems a ++ elems b := by
  simp [elems, splitBy_append (fun c => decide (c = 47)) a b 47 (by simp)]

theorem elems_name (e : Bytes) (h1 : e ≠ []) (h2 : 47 ∉ e) : elems e = [e] := by
  have : splitBy (fun c => decide (c = 47)) e = [e] :=
    splitBy_of_not_sep _ e (fun c hc => by
      have : c ≠ 47 := fun h => h2 (h ▸ hc)
      simp [this])
  simp [elems, this, h1]

theorem takeWhile_not_mem (path : Bytes) : 47 ∉ path.takeWhile (fun b => b != 47) := by
  intro h
  have := List.mem_takeWhile_imp h
  simp at this

theorem dropWhile_shape (path : Bytes) :
    path.dropWhile (fun b => b != 47) = [] ∨
      ∃ r, path.dropWhile (fun b => b != 47) = 47 :: r := by
  induction path with
  | nil => simp
  | cons c t ih =>
    by_cases hc : c = 47
    · right; exact ⟨t, by simp [List.dropWhile_cons, hc]⟩
    · simpa [List.dropWhile_cons, hc] using ih

theorem elems_cons (c : Nat) (rest : Bytes) (hc : c ≠ 47) :
    elems (c :: rest) = (c :: rest).takeWhile (fun b => b != 47) ::
      elems ((c :: rest).dropWhile (fun b => b != 47)) := by
  have hsplit := List.takeWhile_append_dropWhile (fun b => b != 47) (c :: rest)
  have hne : (c :: rest).takeWhile (fun b => b != 47) ≠ [] := by
    simp [List.takeWhile_cons, hc]
  have hnm := takeWhile_not_mem (c :: rest)
  rcases dropWhile_shape (c :: rest) with h | ⟨r, h⟩
  · rw [h, elems_nil]
    rw [h, List.append_nil] at hsplit
    rw [hsplit]
    rw [hsplit] at hne hnm
    exact elems_name _ hne hnm
  · rw [h, elems_slash]
    conv_lhs => rw [← hsplit, h]
    rw [elems_append, elems_name _ hne hnm]
    simp

theorem backUp_eq (out : Bytes) (dd m : Nat) (hdd : dd ≤ m) (hm : m = dd ∨ out.getD m 0 = 47) :
    ∀ j, (∀ i, m < i → i ≤ m + j → out.getD i 0 ≠ 47) → backUp out dd (m + j) = m := by
  intro j
  induction j with
  | zero =>
    intro _
    cases m with
    | zero => simp [backUp]
    | succ m' =>
      simp only [Nat.add_zero, backUp]
      rw [if_neg]
      rintro ⟨h1, h2⟩
      rcases hm with h | h
      · omega
      · exact h2 h
  | succ j ih =>
    intro h
    have h1 : out.getD (m + j + 1) 0 ≠ 47 := h (m + j + 1) (by omega) (by omega)
    have h2 : m + j + 1 > dd := by omega
    rw [show m + (j + 1) = (m + j) + 1 from rfl, backUp]
    simp only [h1, h2, ne_eq, not_false_eq_true, and_self, ↓reduceIte]
    exact ih (fun i hi1 hi2 => h i hi1 (by omega))

theorem getD_mem_of_lt (l : Bytes) (i : Nat) (h : i < l.length) : l.getD i 0 ∈ l := by
  rw [List.getD_eq_getElem _ _ h]
  exact List.getElem_mem h

theorem take_backUp_pushElem (rooted : Bool) (pre e : Bytes) (dd : Nat)
    (hdd : dd ≤ pre.length) (hroot : rooted = true → dd = 1) (he : e ≠ []) (hs : 47 ∉ e) :
    (pushElem rooted pre e).take
      (backUp (pushElem rooted pre e) dd ((pushElem rooted pre e).length - 1)) = pre := by
  have hlen : 0 < e.length := List.length_pos.mpr he
  unfold pushElem
  split
  · -- a separator was added
    have hout : pre ++ [47] ++ e = pre ++ 47 :: e := by simp
    rw [hout]
    have hl : (pre ++ 47 :: e).length - 1 = pre.length + e.length := by simp
    have h47 : (pre ++ 47 :: e).getD pre.length 0 = 47 := by
      rw [List.getD_append_right _ _ _ _ (Nat.le_refl _)]
      simp
    rw [hl, backUp_eq (pre ++ 47 :: e) dd pre.length hdd (Or.inr h47) e.length]
    · simp
    · intro i hi1 hi2
      rw [List.getD_append_right _ _ _ _ (by omega)]
      have : i - pre.length = (i - pre.length - 1) + 1 := by omega
      rw [this, List.getD_cons_succ]
      intro h47
      exact hs (h47 ▸ getD_mem_of_lt e _ (by omega))
  · -- no separator: the buffer was the bare root or empty
    rename_i hc
    have hm : pre.length = dd := by
      cases rooted with
      | true =>
        have : pre.length = 1 := by
          by_contra h; exact hc (Or.inl ⟨rfl, h⟩)
        rw [this, hroot rfl]
      | false =>
        have : pre.length = 0 := by
          by_contra h; exact hc (Or.inr ⟨rfl, h⟩)
        omega
    have hl : (pre ++ e).length - 1 = pre.length + (e.length - 1) := by
      simp; omega
    rw [hl, backUp_eq (pre ++ e) dd pre.length hdd (Or.inl hm) (e.length - 1)]
    · simp
    · intro i hi1 hi2
      rw [List.getD_append_right _ _ _ _ (by omega)]
      intro h47
      exact hs (h47 ▸ getD_mem_of_lt e _ (by omega))

theorem length_pushElem (rooted : Bool) (out e : Bytes) :
    out.length + e.length ≤ (pushElem rooted out e).length := by
  unfold pushElem
  split <;> simp

theorem dotdotOf_le_outOf (rooted : Bool) (k : Nat) (ns : List Bytes) :
    dotdotOf rooted k ≤ (outOf rooted k ns).length := by
  induction ns with
  | nil => cases rooted <;> simp [outOf, dotdotOf]
  | cons e s ih =>
    have := length_pushElem rooted (outOf rooted k s) e
    simp only [outOf]
    omega

theorem dotdotOf_lt_outOf (rooted : Bool) (k : Nat) (e : Bytes) (ns : List Bytes) (he : e ≠ []) :
    dotdotOf rooted k < (outOf rooted k (e :: ns)).length := by
  have h1 := length_pushElem rooted (outOf rooted k ns) e
  have h2 := dotdotOf_le_outOf rooted k ns
  have h3 : 0 < e.length := List.length_pos.mpr he
  simp only [outOf]
  omega

theorem outOf_nil_length (rooted : Bool) (k : Nat) :
    (outOf rooted k []).length = dotdotOf rooted k := by
  cases rooted <;> simp [outOf, dotdotOf]

theorem takeWhile_eq_dot (c : Nat) (rest : Bytes)
    (h : (c :: rest).takeWhile (fun b => b != 47) = [46]) :
    c = 46 ∧ (rest = [] ∨ rest.head? = some 47) := by
  by_cases hc : c = 47
  · simp [List.takeWhile_cons, hc] at h
  · simp only [List.takeWhile_cons, bne_iff_ne, ne_eq, hc, not_false_eq_true, decide_True,
      ↓reduceIte, List.cons.injEq] at h
    refine ⟨h.1, ?_⟩
    cases rest with
    | nil => exact Or.inl rfl
    | cons d r =>
      right
      by_cases hd : d = 47
      · simp [hd]
      · simp [List.takeWhile_cons, hd] at h

theorem takeWhile_eq_dotdot (c : Nat) (rest : Bytes)
    (h : (c :: rest).takeWhile (fun b => b != 47) = [46, 46]) :
    c = 46 ∧ rest.head? = some 46 ∧ (rest.tail = [] ∨ rest.tail.head? = some 47) := by
  by_cases hc : c = 47
  · simp [List.takeWhile_cons, hc] at h
  · simp only [List.takeWhile_cons, bne_iff_ne, ne_eq, hc, not_false_eq_true, decide_True,
      ↓reduceIte, List.cons.injEq] at h
    refine ⟨h.1, ?_⟩
    cases rest with
    | nil => simp at h
    | cons d r =>
      by_cases hd : d = 47
      · simp [List.takeWhile_cons, hd] at h
      · simp only [List.takeWhile_cons, bne_iff_ne, ne_eq, hd, not_false_eq_true, decide_True,
          ↓reduceIte, List.cons.injEq] at h
        refine ⟨by simp [h.2.1], ?_⟩
        cases r with
        | nil => exact Or.inl rfl
        | cons d2 r2 =>
          right
          by_cases hd2 : d2 = 47
          · simp [hd2]
          · simp [List.takeWhile_cons, hd2] at h

theorem elems_dot (rest : Bytes) (h : rest = [] ∨ rest.head? = some 47) :
    elems (46 :: rest) = [46] :: elems rest := by
  rw [elems_cons 46 rest (by decide)]
  rcases h with rfl | h
  · simp
  · cases rest with
    | nil => simp at h
    | cons d r =>
      simp only [List.head?_cons, Option.some.injEq] at h
      subst h
      simp [List.takeWhile_cons, List.dropWhile_cons]

theorem elems_dotdot (rest : Bytes) (h : rest = [] ∨ rest.head? = some 47) :
    elems (46 :: 46 :: rest) = [46, 46] :: elems rest := by
  rw [elems_cons 46 _ (by decide)]
  rcases h with rfl | h
  · simp [List.takeWhile_cons, List.dropWhile_cons]
  · cases rest with
    | nil => simp at h
    | cons d r =>
      simp only [List.head?_cons, Option.some.injEq] at h
      subst h
      simp [List.takeWhile_cons, List.dropWhile_cons]

theorem length_dropWhile_le (c : Nat) (rest : Bytes) (hc : c ≠ 47) :
    ((c :: rest).dropWhile (fun b => b != 47)).length ≤ rest.length := by
  rw [List.dropWhile_cons]
  simp only [bne_iff_ne, ne_eq, hc, not_false_eq_true, decide_True, ↓reduceIte]
  exact (List.dropWhile_sublist _).length_le

theorem cleanLoop_spec (rooted : Bool) :
    ∀ (fuel : Nat) (path : Bytes) (k : Nat) (ns : List Bytes),
      path.length ≤ fuel → ValidState rooted k ns →
      cleanLoop rooted fuel path (outOf rooted k ns) (dotdotOf rooted k) =
        outOf rooted ((elems path).foldl (cleanStep rooted) (k, ns)).1
          ((elems path).foldl (cleanStep rooted) (k, ns)).2 := by
  intro fuel
  induction fuel with
  | zero =>
    intro path k ns hl _
    have : path = [] := List.length_eq_zero.mp (by omega)
    subst this
    simp [cleanLoop, elems_nil]
  | succ fuel ih =>
    intro path k ns hl hv
    cases path with
    | nil => simp [cleanLoop, elems_nil]
    | cons c rest =>
      have hl2 : rest.length ≤ fuel := by simp at hl; omega
      rw [cleanLoop]
      by_cases hc : c = 47
      · subst hc
        simp only [↓reduceIte]
        rw [elems_slash]
        exact ih rest k ns hl2 hv
      · rw [if_neg hc]
        by_cases hdot : c = 46 ∧ (rest = [] ∨ rest.head? = some 47)
        · rw [if_pos hdot]
          obtain ⟨rfl, hr⟩ := hdot
          rw [elems_dot rest hr]
          simp only [List.foldl_cons, cleanStep, ↓reduceIte]
          exact ih rest k ns hl2 hv
        · rw [if_neg hdot]
          by_cases hdd : c = 46 ∧ rest.head? = some 46 ∧
              (rest.tail = [] ∨ rest.tail.head? = some 47)
          · rw [if_pos hdd]
            obtain ⟨rfl, h2, h3⟩ := hdd
            cases rest with
            | nil => simp at h2
            | cons d rest2 =>
              simp only [List.head?_cons, Option.some.injEq] at h2
              subst h2
              simp only [List.tail_cons] at h3 ⊢
              have hl3 : rest2.length ≤ fuel := by simp at hl2; omega
              rw [elems_dotdot rest2 h3]
              simp only [List.foldl_cons]
              cases ns with
              | nil =>
                have hlen : ¬ (outOf rooted k []).length > dotdotOf rooted k := by
                  rw [outOf_nil_length]; omega
                rw [if_neg hlen]
                cases rooted with
                | true =>
                  simp only [Bool.not_true, Bool.false_eq_true, ↓reduceIte]
                  have : cleanStep true (k, []) [46, 46] = (k, []) := by
                    simp [cleanStep]
                  rw [this]
                  exact ih rest2 k [] hl3 hv
                | false =>
                  simp only [Bool.not_false, ↓reduceIte]
                  have : cleanStep false (k, []) [46, 46] = (k + 1, []) := by
                    simp [cleanStep]
                  rw [this]
                  have hv2 : ValidState false (k + 1) [] := ⟨by simp, by simp⟩
                  have := ih rest2 (k + 1) [] hl3 hv2
                  simpa [outOf, dots, dotdotOf] using this
              | cons e s =>
                have he : IsName e := hv.2 e (by simp)
                have hlen : (outOf rooted k (e :: s)).length > dotdotOf rooted k :=
                  dotdotOf_lt_outOf rooted k e s he.1
                rw [if_pos hlen]
                have hv2 : ValidState rooted k s :=
                  ⟨hv.1, fun x hx => hv.2 x (by simp [hx])⟩
                have : cleanStep rooted (k, e :: s) [46, 46] = (k, s) := by
                  simp [cleanStep]
                rw [this]
                have htake : (outOf rooted k (e :: s)).take
                    (backUp (outOf rooted k (e :: s)) (dotdotOf rooted k)
                      ((outOf rooted k (e :: s)).length - 1)) = outOf rooted k s :=
                  take_backUp_pushElem rooted (outOf rooted k s) e (dotdotOf rooted k)
                    (dotdotOf_le_outOf rooted k s) (fun h => by simp [dotdotOf, h]) he.1 he.2.1
                rw [htake]
                exact ih rest2 k s hl3 hv2
          · rw [if_neg hdd]
            rw [elems_cons c rest hc]
            have hne : (c :: rest).takeWhile (fun b => b != 47) ≠ [] := by
              simp [List.takeWhile_cons, hc]
            have hname : IsName ((c :: rest).takeWhile (fun b => b != 47)) :=
              ⟨hne, takeWhile_not_mem _, fun h => hdot (takeWhile_eq_dot c rest h),
                fun h => hdd (takeWhile_eq_dotdot c rest h)⟩
            have hv2 : ValidState rooted k ((c :: rest).takeWhile (fun b => b != 47) :: ns) :=
              ⟨hv.1, fun x hx => by
                simp only [List.mem_cons] at hx
                rcases hx with rfl | hx
                · exact hname
                · exact hv.2 x hx⟩
            have hstep : cleanStep rooted (k, ns) ((c :: rest).takeWhile (fun b => b != 47)) =
                (k, (c :: rest).takeWhile (fun b => b != 47) :: ns) := by
              simp [cleanStep, hname.2.2.1, hname.2.2.2]
            simp only [List.foldl_cons, hstep]
            exact ih _ k _ (Nat.le_trans (length_dropWhile_le c rest hc) hl2) hv2

theorem Clean_eq (path : Bytes) (rooted : Bool) (hne : path ≠ [])
    (hr : path.head? = some 47 ↔ rooted = true) :
    Clean path =
      if (outOf rooted ((elems path).foldl (cleanStep rooted) (0, [])).1
            ((elems path).foldl (cleanStep rooted) (0, [])).2).length = 0 then [46]
      else outOf rooted ((elems path).foldl (cleanStep rooted) (0, [])).1
            ((elems path).foldl (cleanStep rooted) (0, [])).2 := by
  cases path with
  | nil => exact absurd rfl hne
  | cons c rest =>
    have hv : ValidState rooted 0 [] := ⟨fun _ => rfl, by simp⟩
    unfold Clean
    cases rooted with
    | true =>
      have hc : c = 47 := by simpa using hr.mpr rfl
      subst hc
      have h := cleanLoop_spec true (47 :: rest).length rest 0 [] (by simp) hv
      simp only [outOf, dotdotOf, ↓reduceIte] at h
      simp only [decide_True, ↓reduceIte, h, elems_slash]
    | false =>
      have hc : c ≠ 47 := by
        intro h
        have := hr.mp (by simp [h])
        simp at this
      have h := cleanLoop_spec false (c :: rest).length (c :: rest) 0 [] (Nat.le_refl _) hv
      simp only [outOf, dotdotOf, dots, Bool.false_eq_true, ↓reduceIte, List.length_nil] at h
      simp only [hc, decide_False, Bool.false_eq_true, ↓reduceIte, h]

theorem splitBy_fields (p : Nat → Bool) (s : Bytes) :
    ∀ f ∈ splitBy p s, ∀ c ∈ f, p c = false := by
  induction s with
  | nil => simp [splitBy]
  | cons c t ih =>
    unfold splitBy
    split
    · intro f hf
      simp only [List.mem_cons] at hf
      rcases hf with rfl | hf
      · simp
      · exact ih f hf
    · rename_i hc
      cases h : splitBy p t with
      | nil => exact absurd h (splitBy_ne_nil p t)
      | cons f0 fs =>
        rw [h] at ih
        intro f hf
        simp only [List.mem_cons] at hf
        rcases hf with rfl | hf
        · intro d hd
          simp only [List.mem_cons] at hd
          rcases hd with rfl | hd
          · simpa using hc
          · exact ih f0 (by simp) d hd
        · exact ih f (by simp [hf])

theorem elems_mem (path e : Bytes) (h : e ∈ elems path) : e ≠ [] ∧ 47 ∉ e := by
  simp only [elems, List.mem_filter, Bool.not_eq_true', List.isEmpty_eq_false] at h
  refine ⟨h.2, fun h47 => ?_⟩
  have := splitBy_fields _ path e h.1 47 h47
  simp at this

theorem cleanStep_valid (rooted : Bool) (k : Nat) (ns : List Bytes) (e : Bytes)
    (hv : ValidState rooted k ns) (h1 : e ≠ []) (h2 : 47 ∉ e) :
    ValidState rooted (cleanStep rooted (k, ns) e).1 (cleanStep rooted (k, ns) e).2 := by
  unfold cleanStep
  by_cases hd : e = [46]
  · simpa [hd] using hv
  · by_cases hdd : e = [46, 46]
    · subst hdd
      cases ns with
      | nil =>
        cases rooted with
        | true => simpa using hv
        | false => exact ⟨by simp, by simp⟩
      | cons x s =>
        have e : cleanStep rooted (k, x :: s) [46, 46] = (k, s) := by simp [cleanStep]
        unfold cleanStep at e
        rw [e]
        exact ⟨hv.1, fun y hy => hv.2 y (by simp [hy])⟩
    · simp only [hd, hdd, ↓reduceIte]
      refine ⟨hv.1, fun y hy => ?_⟩
      simp only [List.mem_cons] at hy
      rcases hy with rfl | hy
      · exact ⟨h1, h2, hd, hdd⟩
      · exact hv.2 y hy

theorem foldl_cleanStep_valid (rooted : Bool) (l : List Bytes)
    (hl : ∀ e ∈ l, e ≠ [] ∧ 47 ∉ e) :
    ∀ (k : Nat) (ns : List Bytes), ValidState rooted k ns →
      ValidState rooted (l.foldl (cleanStep rooted) (k, ns)).1
        (l.foldl (cleanStep rooted) (k, ns)).2 := by
  induction l with
  | nil => intro k ns hv; simpa using hv
  | cons e t ih =>
    intro k ns hv
    simp only [List.foldl_cons]
    have h := cleanStep_valid rooted k ns e hv (hl e (by simp)).1 (hl e (by simp)).2
    exact ih (fun x hx => hl x (by simp [hx])) _ _ h

theorem foldl_cleanStep_names (rooted : Bool) (l : List Bytes)
    (hl : ∀ e ∈ l, e ≠ [46, 46]) :
    ∀ (k : Nat) (ns : List Bytes),
      l.foldl (cleanStep rooted) (k, ns) =
        (k, (l.filter (fun e => decide (e ≠ [46]))).reverse ++ ns) := by
  induction l with
  | nil => intro k ns; simp
  | cons e t ih =>
    intro k ns
    have ht := ih (fun x hx => hl x (by simp [hx]))
    have hdd : e ≠ [46, 46] := hl e (by simp)
    simp only [List.foldl_cons]
    by_cases hd : e = [46]
    · subst hd
      simp [cleanStep, ht]
    · simp [cleanStep, hd, hdd, ht, List.filter_cons]

theorem foldl_cleanStep_dotdots (k : Nat) :
    ∀ k0, (List.replicate k [46, 46]).foldl (cleanStep false) (k0, []) = (k0 + k, []) := by
  induction k with
  | zero => intro k0; simp
  | succ k ih =>
    intro k0
    simp only [List.replicate_succ, List.foldl_cons]
    have : cleanStep false (k0, []) [46, 46] = (k0 + 1, []) := by simp [cleanStep]
    rw [this, ih]
    congr 1
    omega

theorem elems_dots (k : Nat) : elems (dots k) = List.replicate k [46, 46] := by
  induction k with
  | zero => simp [dots, elems_nil]
  | succ k ih =>
    unfold dots
    split
    · have : dots k ++ [47] ++ [46, 46] = dots k ++ 47 :: [46, 46] := by simp
      rw [this, elems_append, ih, elems_name [46, 46] (by simp) (by decide),
        List.replicate_succ']
    · rename_i h
      have h0 : dots k = [] := List.length_eq_zero.mp (by omega)
      rw [h0, elems_nil] at ih
      rw [h0, List.nil_append, elems_name [46, 46] (by simp) (by decide), List.replicate_succ',
        ← ih, List.nil_append]

theorem elems_outOf (rooted : Bool) (k : Nat) (ns : List Bytes) (hv : ValidState rooted k ns) :
    elems (outOf rooted k ns) = List.replicate k [46, 46] ++ ns.reverse := by
  induction ns with
  | nil =>
    cases rooted with
    | true =>
      have : k = 0 := hv.1 rfl
      subst this
      simp [outOf, elems_slash, elems_nil]
    | false => simp [outOf, elems_dots]
  | cons e s ih =>
    have hv2 : ValidState rooted k s := ⟨hv.1, fun x hx => hv.2 x (by simp [hx])⟩
    have he : IsName e := hv.2 e (by simp)
    have ih2 := ih hv2
    simp only [outOf, pushElem]
    split
    · have : outOf rooted k s ++ [47] ++ e = outOf rooted k s ++ 47 :: e := by simp
      rw [this, elems_append, ih2, elems_name e he.1 he.2.1]
      simp
    · rename_i hc
      cases s with
      | cons e2 s2 =>
        have hlt := dotdotOf_lt_outOf rooted k e2 s2 (hv2.2 e2 (by simp)).1
        exfalso
        apply hc
        cases rooted with
        | true => left; simp [dotdotOf] at hlt; exact ⟨rfl, by omega⟩
        | false => right; exact ⟨rfl, by omega⟩
      | nil =>
        cases rooted with
        | true =>
          have : k = 0 := hv.1 rfl
          subst this
          simp [outOf, elems_slash, elems_name e he.1 he.2.1]
        | false =>
          have h0 : (outOf false k []).length = 0 := by
            by_contra h; exact hc (Or.inr ⟨rfl, h⟩)
          have h1 : outOf false k [] = [] := List.length_eq_zero.mp h0
          rw [h1, elems_nil] at ih2
          rw [h1, List.nil_append, elems_name e he.1 he.2.1]
          simp only [List.reverse_nil, List.append_nil] at ih2
          rw [← ih2]
          simp

theorem head?_dots (k : Nat) : (dots k).head? ≠ some 47 := by
  induction k with
  | zero => simp [dots]
  | succ k ih =>
    unfold dots
    split
    · rename_i h
      cases hd : dots k with
      | nil => rw [hd] at h; simp at h
      | cons c t =>
        rw [hd] at ih
        simpa using ih
    · rename_i h
      have h0 : dots k = [] := List.length_eq_zero.mp (by omega)
      simp [h0]

theorem head?_pushElem (rooted : Bool) (out e : Bytes) (ho : out ≠ []) :
    (pushElem rooted out e).head? = out.head? := by
  cases out with
  | nil => exact absurd rfl ho
  | cons c t =>
    unfold pushElem
    split <;> simp

theorem head?_outOf (rooted : Bool) (k : Nat) (ns : List Bytes) (hv : ValidState rooted k ns) :
    (outOf rooted k ns).head? = some 47 ↔ rooted = true := by
  induction ns with
  | nil =>
    cases rooted with
    | true => simp [outOf]
    | false => simpa [outOf] using head?_dots k
  | cons e s ih =>
    have hv2 : ValidState rooted k s := ⟨hv.1, fun x hx => hv.2 x (by simp [hx])⟩
    have he : IsName e := hv.2 e (by simp)
    by_cases ho : outOf rooted k s = []
    · cases rooted with
      | true =>
        have := dotdotOf_le_outOf true k s
        simp [ho, dotdotOf] at this
      | false =>
        simp only [outOf, pushElem, ho, List.length_nil]
        cases e with
        | nil => exact absurd rfl he.1
        | cons c t =>
          have hc : c ≠ 47 := fun h => he.2.1 (by simp [h])
          simp [hc]
    · simp only [outOf]
      rw [head?_pushElem rooted _ e ho]
      exact ih hv2

theorem outOf_ne_nil (rooted : Bool) (k : Nat) (e : Bytes) (ns : List Bytes) (he : e ≠ []) :
    outOf rooted k (e :: ns) ≠ [] := by
  have := dotdotOf_lt_outOf rooted k e ns he
  intro h
  rw [h] at this
  simp at this

theorem foldl_elems_outOf (rooted : Bool) (k : Nat) (ns : List Bytes)
    (hv : ValidState rooted k ns) :
    (List.replicate k [46, 46] ++ ns.reverse).foldl (cleanStep rooted) (0, []) = (k, ns) := by
  rw [List.foldl_append]
  have h1 : (List.replicate k [46, 46]).foldl (cleanStep rooted) (0, []) = (k, []) := by
    cases rooted with
    | true =>
      have : k = 0 := hv.1 rfl
      subst this
      simp
    | false => simpa using foldl_cleanStep_dotdots k 0
  rw [h1, foldl_cleanStep_names rooted ns.reverse
    (fun e he => (hv.2 e (List.mem_reverse.mp he)).2.2.2) k []]
  have : ns.reverse.filter (fun e => decide (e ≠ [46])) = ns.reverse := by
    apply List.filter_eq_self.mpr
    intro e he
    simpa using (hv.2 e (List.mem_reverse.mp he)).2.2.1
  rw [this]
  simp

/-- `Clean` leaves a cleaned path with at least one name as it is. -/
theorem Clean_outOf (rooted : Bool) (k : Nat) (e : Bytes) (ns : List Bytes)
    (hv : ValidState rooted k (e :: ns)) :
    Clean (outOf rooted k (e :: ns)) = outOf rooted k (e :: ns) := by
  have hne := outOf_ne_nil rooted k e ns (hv.2 e (by simp)).1
  rw [Clean_eq _ rooted hne (head?_outOf rooted k _ hv), elems_outOf rooted k _ hv,
    foldl_elems_outOf rooted k _ hv]
  simp only
  rw [if_neg]
  intro h
  exact hne (List.length_eq_zero.mp h)

theorem pushElem_sep (rooted : Bool) (k : Nat) (e : Bytes) (ns : List Bytes) (t : Bytes)
    (he : e ≠ []) :
    pushElem rooted (outOf rooted k (e :: ns)) t = outOf rooted k (e :: ns) ++ 47 :: t := by
  have hlt := dotdotOf_lt_outOf rooted k e ns he
  unfold pushElem
  rw [if_pos]
  · simp
  · cases rooted with
    | true => left; simp [dotdotOf] at hlt; exact ⟨rfl, by omega⟩
    | false => right; exact ⟨rfl, by omega⟩

theorem outOf_append (rooted : Bool) (k : Nat) (e : Bytes) (ns : List Bytes) (he : e ≠ [])
    (T : List Bytes) (hT : ∀ t ∈ T, t ≠ []) :
    outOf rooted k (T ++ e :: ns) = outOf rooted k (e :: ns) ∨
      (outOf rooted k (e :: ns) ++ [47]) <+: outOf rooted k (T ++ e :: ns) := by
  induction T with
  | nil => left; rfl
  | cons t T ih =>
    right
    have ih2 := ih (fun x hx => hT x (by simp [hx]))
    have hpush : outOf rooted k (t :: T ++ e :: ns) =
        outOf rooted k (T ++ e :: ns) ++ 47 :: t := by
      cases T with
      | nil => exact pushElem_sep rooted k e ns t he
      | cons x xs => exact pushElem_sep rooted k x (xs ++ e :: ns) t (hT x (by simp))
    rw [hpush]
    rcases ih2 with h | ⟨u, hu⟩
    · rw [h]
      exact ⟨t, by simp⟩
    · rw [← hu]
      exact ⟨u ++ 47 :: t, by simp⟩

theorem Clean_append (rooted : Bool) (k : Nat) (e : Bytes) (ns : List Bytes)
    (hv : ValidState rooted k (e :: ns)) (R : Bytes) (hR : [46, 46] ∉ elems R) :
    ∃ T, (∀ t ∈ T, IsName t) ∧
      Clean (outOf rooted k (e :: ns) ++ 47 :: R) = outOf rooted k (T ++ e :: ns) := by
  have he : e ≠ [] := (hv.2 e (by simp)).1
  have hne := outOf_ne_nil rooted k e ns he
  have hne2 : outOf rooted k (e :: ns) ++ 47 :: R ≠ [] := by simp
  have hhead : (outOf rooted k (e :: ns) ++ 47 :: R).head? = some 47 ↔ rooted = true := by
    rw [List.head?_append_of_ne_nil _ hne]
    exact head?_outOf rooted k _ hv
  have hnames : ∀ t ∈ ((elems R).filter (fun x => decide (x ≠ [46]))).reverse, IsName t := by
    intro t ht
    simp only [List.mem_reverse, List.mem_filter, decide_eq_true_eq] at ht
    have := elems_mem R t ht.1
    exact ⟨this.1, this.2, ht.2, fun h => hR (h ▸ ht.1)⟩
  refine ⟨((elems R).filter (fun x => decide (x ≠ [46]))).reverse, hnames, ?_⟩
  rw [Clean_eq _ rooted hne2 hhead, elems_append, elems_outOf rooted k _ hv, List.foldl_append,
    foldl_elems_outOf rooted k _ hv,
    foldl_cleanStep_names rooted (elems R) (fun x hx h => hR (h ▸ hx)) k (e :: ns)]
  simp only
  rw [if_neg]
  intro h
  have h0 := List.length_eq_zero.mp h
  have hlt := dotdotOf_le_outOf rooted k
    (((elems R).filter (fun x => decide (x ≠ [46]))).reverse ++ e :: ns)
  cases hT : ((elems R).filter (fun x => decide (x ≠ [46]))).reverse with
  | nil =>
    rw [hT] at h0
    exact hne h0
  | cons x xs =>
    rw [hT] at h0 hnames
    exact outOf_ne_nil rooted k x (xs ++ e :: ns) (hnames x (by simp)).1 h0

theorem Join_pair (P R : Bytes) (hP : P ≠ []) : Join [P, R] = Clean (P ++ 47 :: R) := by
  cases P with
  | nil => exact absurd rfl hP
  | cons c t => simp [Join, List.intercalate, List.dropWhile_cons]

theorem publicDir_shape (LibDir : Bytes) :
    ∃ rooted k ns, ValidState rooted k (ascii "public" :: ns) ∧
      Join [LibDir, ascii "public"] = outOf rooted k (ascii "public" :: ns) := by
  have hpub : IsName (ascii "public") := by
    refine ⟨by decide, by decide, by decide, by decide⟩
  cases hL : LibDir with
  | nil =>
    refine ⟨false, 0, [], ⟨by simp, fun x hx => ?_⟩, by decide⟩
    simp only [List.mem_singleton] at hx
    exact hx ▸ hpub
  | cons c t =>
    rw [← hL]
    have hne : LibDir ≠ [] := by simp [hL]
    rw [Join_pair LibDir _ hne]
    have hne2 : LibDir ++ 47 :: ascii "public" ≠ [] := by simp
    have hhead : (LibDir ++ 47 :: ascii "public").head? = some 47 ↔ decide (c = 47) = true := by
      rw [List.head?_append_of_ne_nil _ hne, hL]
      simp
    have hv0 : ValidState (decide (c = 47)) 0 [] := ⟨fun _ => rfl, by simp⟩
    have hv := foldl_cleanStep_valid (decide (c = 47)) (elems LibDir)
      (fun e he => elems_mem LibDir e he) 0 [] hv0
    have hstep : ∀ st : Nat × List Bytes,
        cleanStep (decide (c = 47)) st (ascii "public") = (st.1, ascii "public" :: st.2) := by
      intro st
      have h1 : ascii "public" ≠ [46] := by decide
      have h2 : ascii "public" ≠ [46, 46] := by decide
      simp [cleanStep, h1, h2]
    refine ⟨decide (c = 47),
      ((elems LibDir).foldl (cleanStep (decide (c = 47))) (0, [])).1,
      ((elems LibDir).foldl (cleanStep (decide (c = 47))) (0, [])).2, ?_, ?_⟩
    · refine ⟨hv.1, fun x hx => ?_⟩
      simp only [List.mem_cons] at hx
      rcases hx with rfl | hx
      · exact hpub
      · exact hv.2 x hx
    · rw [Clean_eq _ (decide (c = 47)) hne2 hhead, elems_append,
        elems_name (ascii "public") hpub.1 hpub.2.1, List.foldl_append]
      simp only [List.foldl_cons, List.foldl_nil, hstep]
      rw [if_neg]
      intro h
      exact outOf_ne_nil _ _ _ _ hpub.1 (List.length_eq_zero.mp h)

theorem splitBy_refine (R : Bytes) :
    ∀ f1 fs1 f2 fs2, splitBy (fun c => decide (c = 47)) R = f1 :: fs1 →
      splitBy (fun c => decide (c = 47 ∨ c = 92)) R = f2 :: fs2 →
      (92 ∉ f1 → f2 = f1) ∧ (∀ e ∈ fs1, 92 ∉ e → e ∈ fs2) := by
  induction R with
  | nil =>
    intro f1 fs1 f2 fs2 h1 h2
    simp only [splitBy, List.cons.injEq] at h1 h2
    obtain ⟨rfl, rfl⟩ := h1
    obtain ⟨rfl, rfl⟩ := h2
    simp
  | cons c t ih =>
    intro f1 fs1 f2 fs2 h1 h2
    cases hg1 : splitBy (fun c => decide (c = 47)) t with
    | nil => exact absurd hg1 (splitBy_ne_nil _ t)
    | cons g1 gs1 =>
      cases hg2 : splitBy (fun c => decide (c = 47 ∨ c = 92)) t with
      | nil => exact absurd hg2 (splitBy_ne_nil _ t)
      | cons g2 gs2 =>
        obtain ⟨ihH, ihM⟩ := ih g1 gs1 g2 gs2 hg1 hg2
        by_cases hc : c = 47
        · subst hc
          simp only [splitBy, decide_True, ↓reduceIte, hg1, List.cons.injEq] at h1
          simp only [splitBy, true_or, decide_True, ↓reduceIte, hg2, List.cons.injEq] at h2
          obtain ⟨rfl, rfl⟩ := h1
          obtain ⟨rfl, rfl⟩ := h2
          refine ⟨fun _ => rfl, fun e he hn => ?_⟩
          simp only [List.mem_cons] at he
          rcases he with rfl | he
          · simp [ihH hn]
          · exact List.mem_cons_of_mem _ (ihM e he hn)
        · by_cases hb : c = 92
          · subst hb
            simp only [splitBy, hc, decide_False, Bool.false_eq_true, ↓reduceIte, hg1,
              List.cons.injEq] at h1
            simp only [splitBy, or_true, decide_True, ↓reduceIte, hg2, List.cons.injEq] at h2
            obtain ⟨rfl, rfl⟩ := h1
            obtain ⟨rfl, rfl⟩ := h2
            refine ⟨fun hn => absurd (List.mem_cons_self _ _) hn, fun e he hn => ?_⟩
            exact List.mem_cons_of_mem _ (ihM e he hn)
          · simp only [splitBy, hc, decide_False, Bool.false_eq_true, ↓reduceIte, hg1,
              List.cons.injEq] at h1
            simp only [splitBy, hc, hb, or_self, decide_False, Bool.false_eq_true, ↓reduceIte,
              hg2, List.cons.injEq] at h2
            obtain ⟨rfl, rfl⟩ := h1
            obtain ⟨rfl, rfl⟩ := h2
            refine ⟨fun hn => ?_, fun e he hn => ihM e he hn⟩
            have : 92 ∉ g1 := fun h => hn (List.mem_cons_of_mem _ h)
            rw [ihH this]

theorem containsDotDot_of_elem (R : Bytes) (h : [46, 46] ∈ elems R) :
    containsDotDot R = true := by
  simp only [elems, List.mem_filter] at h
  have h1 := h.1
  cases hg1 : splitBy (fun c => decide (c = 47)) R with
  | nil => exact absurd hg1 (splitBy_ne_nil _ R)
  | cons g1 gs1 =>
    cases hg2 : splitBy (fun c => decide (c = 47 ∨ c = 92)) R with
    | nil => exact absurd hg2 (splitBy_ne_nil _ R)
    | cons g2 gs2 =>
      obtain ⟨hH, hM⟩ := splitBy_refine R g1 gs1 g2 gs2 hg1 hg2
      have hmem : [46, 46] ∈ g2 :: gs2 := by
        rw [hg1] at h1
        simp only [List.mem_cons] at h1
        rcases h1 with h1 | h1
        · have := hH (h1 ▸ (by decide : (92 : Nat) ∉ [46, 46]))
          rw [this, ← h1]
          exact List.mem_cons_self _ _
        · exact List.mem_cons_of_mem _ (hM _ h1 (by decide))
      unfold containsDotDot
      rw [hg2]
      exact List.any_eq_true.mpr ⟨[46, 46], hmem, by simp⟩

/-! ## The Universal gate -/

/-- C3: session wins.  When the session holds a non-empty username,
`uniAuthMiddleware` does nothing but call `Next`: whatever the request (its
Authorization header in particular) and whatever the credential check would
answer, the header is not parsed, the check is not called and no response is
written. -/
theorem uniAuthMiddleware_session_wins (Check : Bytes → Bytes → GoError) (request : Request)
    (username : Bytes) (hn : username ≠ []) :
    uniAuthMiddleware Check ⟨request, some username⟩ = [Event.Next] := by
  have : 0 < username.length := List.length_pos.mpr hn
  simp [uniAuthMiddleware, this]

/-- Witness of C3: a session of `admin` passes with the bare header `Basic`
and a check that rejects everybody. -/
theorem uniAuthMiddleware_session_wins_witness :
    ascii "admin" ≠ [] ∧
    uniAuthMiddleware (fun _ _ => some (ascii "no such user"))
      ⟨⟨ascii "/api/v1/status/hello", ascii "Basic", []⟩, some (ascii "admin")⟩ = [Event.Next] :=
  ⟨by decide, uniAuthMiddleware_session_wins _ _ _ (by decide)⟩

/-- C1, as stated, fails.  The header `Basic`, two spaces, `YTpi` is not of
the form of the specification, yet the gate takes the credentials `a`, `b`
from it and, the check accepting them, calls `Next`.  The bare header `Basic`
is not of that form either, and the gate panics on it without writing a
response. -/
theorem uniAuthMiddleware_not_strict :
    (¬ IsBasicCredentials (ascii "Basic  YTpi") ∧
      uniAuthMiddleware (fun _ _ => none) ⟨⟨[], ascii "Basic  YTpi", []⟩, none⟩ =
        [Event.parseAuthBasicHeader (ascii "Basic  YTpi"),
         Event.authenticateUser (ascii "a") (ascii "b"), Event.Next]) ∧
    (¬ IsBasicCredentials (ascii "Basic") ∧
      uniAuthMiddleware (fun _ _ => none) ⟨⟨[], ascii "Basic", []⟩, none⟩ =
        [Event.parseAuthBasicHeader (ascii "Basic"),
         Event.panic (ascii "runtime error: index out of range [1] with length 1")]) :=
  ⟨⟨not_IsBasicCredentials_lenient, by decide⟩, ⟨not_IsBasicCredentials_bare, by decide⟩⟩

/-- C1, amended.  Without a session username, every Authorization header that
is neither accepted by the parser (`AcceptedHeader`: a first token that is
`Basic` up to white space, a space, and a rest that, trimmed, decodes to
`user:pass` with both parts non-empty once trimmed) nor a bare scheme without
any space gets 401 with `error` true, then `Abort`: `Next` is not called and
the credential check is not consulted, whatever it would answer. -/
theorem uniAuthMiddleware_rejects (Check : Bytes → Bytes → GoError) (request : Request)
    (username : Option Bytes) (hs : username = none ∨ username = some [])
    (hb : ¬ BareScheme request.Authorization) (ha : ¬ AcceptedHeader request.Authorization) :
    ∃ err, uniAuthMiddleware Check ⟨request, username⟩ =
      [Event.parseAuthBasicHeader request.Authorization,
       Event.JSON 401 ⟨true, ascii "parse auth header error: " ++ err, some []⟩,
       Event.Abort] := by
  have hu : (Option.any (fun u : Bytes => decide (u.length > 0)) username) = false := by
    rcases hs with rfl | rfl <;> simp
  rcases parseAuthBasicHeader_cases request.Authorization with
    ⟨h, -⟩ | ⟨err, h⟩ | ⟨tok, rest, user, pass, h1, h2, h3, h4, h5, h6, h7, -⟩
  · exact absurd h hb
  · exact ⟨err, by simp [uniAuthMiddleware, hu, h, StatusUnauthorized]⟩
  · exact absurd ⟨tok, rest, user, pass, h1, h2, h3, h4, h5, h6, h7⟩ ha

/-- Witness of C1, amended: the header `Bearer abc` with an empty session
username and a check that accepts everybody. -/
theorem uniAuthMiddleware_rejects_witness :
    ∃ err, uniAuthMiddleware (fun _ _ => none) ⟨⟨[], ascii "Bearer abc", []⟩, some []⟩ =
      [Event.parseAuthBasicHeader (ascii "Bearer abc"),
       Event.JSON 401 ⟨true, ascii "parse auth header error: " ++ err, some []⟩,
       Event.Abort] :=
  uniAuthMiddleware_rejects (fun _ _ => none) ⟨[], ascii "Bearer abc", []⟩ (some [])
    (Or.inr rfl)
    (fun h => absurd h.2 (by decide))
    (fun ⟨tok, rest, _, _, h1, h2, h3, _⟩ => by
      have e := cut_append 32 tok rest h2
      rw [← h1] at e
      have e2 : cut 32 (ascii "Bearer abc") = some (ascii "Bearer", ascii "abc") := by decide
      rw [e2] at e
      simp only [Option.some.injEq, Prod.mk.injEq] at e
      rw [← e.1] at h3
      exact absurd h3 (by decide))

/-- C2, as stated, fails.  For the user ` a` (a space, then `a`) and the
password `b` the gate calls `Next` although the check rejects the pair
(` a`, `b`): it asks the check about (`a`, `b`). -/
theorem uniAuthMiddleware_trims_credentials :
    ascii " a" ≠ [] ∧ 58 ∉ ascii " a" ∧ ascii "b" ≠ [] ∧
    authenticateUser
      (fun u p => if u = ascii "a" ∧ p = ascii "b" then none else some (ascii "no such user"))
      (ascii " a") (ascii "b") = false ∧
    uniAuthMiddleware
      (fun u p => if u = ascii "a" ∧ p = ascii "b" then none else some (ascii "no such user"))
      ⟨⟨[], ascii "Basic " ++ EncodeToString (ascii " a" ++ 58 :: ascii "b"), []⟩, none⟩ =
      [Event.parseAuthBasicHeader (ascii "Basic IGE6Yg=="),
       Event.authenticateUser (ascii "a") (ascii "b"), Event.Next] := by
  decide

/-- C2, amended.  Without a session username, for the header `Basic`, a space
and the base64 encoding of `user:pass` (`user` without a colon), the gate calls
`Next` exactly when `user` and `pass` are non-empty once trimmed of white
space and the check accepts the trimmed pair; otherwise it answers 401 with
`error` true and aborts.  When `user` and `pass` have no white space at either
end, the trimmed pair is (`user`, `pass`) itself. -/
theorem uniAuthMiddleware_basic (Check : Bytes → Bytes → GoError) (request : Request)
    (username : Option Bytes) (user pass : Bytes)
    (hs : username = none ∨ username = some [])
    (hub : IsBytes user) (hpb : IsBytes pass) (hu : user ≠ []) (hc : 58 ∉ user) (hp : pass ≠ [])
    (hh : request.Authorization = ascii "Basic " ++ EncodeToString (user ++ 58 :: pass)) :
    (Event.Next ∈ uniAuthMiddleware Check ⟨request, username⟩ ↔
      TrimSpace user ≠ [] ∧ TrimSpace pass ≠ [] ∧
        authenticateUser Check (TrimSpace user) (TrimSpace pass) = true) ∧
    (Event.Next ∉ uniAuthMiddleware Check ⟨request, username⟩ →
      ∃ msg, Event.JSON 401 ⟨true, msg, some []⟩ ∈ uniAuthMiddleware Check ⟨request, username⟩ ∧
        Event.Abort ∈ uniAuthMiddleware Check ⟨request, username⟩) ∧
    (leadingSpace user = none → trailingSpace user = none →
      leadingSpace pass = none → trailingSpace pass = none →
      (Event.Next ∈ uniAuthMiddleware Check ⟨request, username⟩ ↔
        authenticateUser Check user pass = true)) := by
  have hsess : (Option.any (fun u : Bytes => decide (u.length > 0)) username) = false := by
    rcases hs with rfl | rfl <;> simp
  have hparse := parseAuthBasicHeader_encoded user pass hub hpb hc
  rw [← hh] at hparse
  have key : (Event.Next ∈ uniAuthMiddleware Check ⟨request, username⟩ ↔
      TrimSpace user ≠ [] ∧ TrimSpace pass ≠ [] ∧
        authenticateUser Check (TrimSpace user) (TrimSpace pass) = true) ∧
    (Event.Next ∉ uniAuthMiddleware Check ⟨request, username⟩ →
      ∃ msg, Event.JSON 401 ⟨true, msg, some []⟩ ∈ uniAuthMiddleware Check ⟨request, username⟩ ∧
        Event.Abort ∈ uniAuthMiddleware Check ⟨request, username⟩) := by
    by_cases h1 : TrimSpace user = []
    · simp [uniAuthMiddleware, hsess, hparse, h1, StatusUnauthorized]
    · by_cases h2 : TrimSpace pass = []
      · simp [uniAuthMiddleware, hsess, hparse, h1, h2, StatusUnauthorized]
      · cases h3 : authenticateUser Check (TrimSpace user) (TrimSpace pass) <;>
          simp [uniAuthMiddleware, hsess, hparse, h1, h2, h3, StatusUnauthorized]
  refine ⟨key.1, key.2, ?_⟩
  intro l1 t1 l2 t2
  rw [key.1, TrimSpace_of_none user l1 t1, TrimSpace_of_none pass l2 t2]
  simp [hu, hp]

/-- Witness of C2, amended: user `bot`, password `secret`, no session, a check
that accepts everybody. -/
theorem uniAuthMiddleware_basic_witness :
    Event.Next ∈ uniAuthMiddleware (fun _ _ => none)
        ⟨⟨[], ascii "Basic " ++ EncodeToString (ascii "bot" ++ 58 :: ascii "secret"), []⟩, none⟩ ↔
      authenticateUser (fun _ _ => none) (ascii "bot") (ascii "secret") = true :=
  (uniAuthMiddleware_basic (fun _ _ => none)
    ⟨[], ascii "Basic " ++ EncodeToString (ascii "bot" ++ 58 :: ascii "secret"), []⟩ none
    (ascii "bot") (ascii "secret") (Or.inl rfl) (by decide) (by decide) (by decide) (by decide)
    (by decide) rfl).2.2 (by decide) (by decide) (by decide) (by decide)

/-- C9: `parseAuthBasicHeader` does not return on the header `Basic`: with no
space in the header `auth` has one element and `auth[1]` is out of range. -/
theorem parseAuthBasicHeader_bare_scheme_panics :
    parseAuthBasicHeader (ascii "Basic") =
      Go.panic (ascii "runtime error: index out of range [1] with length 1") := by
  decide

/-! ## The SessionOnly gate -/

/-- C4, as stated, fails: without a session username the message of the 401
envelope is not `wrong session authentication`. -/
theorem sessionAuthMiddleware_message_differs :
    ¬ ∃ r, Event.JSON 401 r ∈ sessionAuthMiddleware ⟨⟨[], [], []⟩, none⟩ ∧
      r.Message = ascii "wrong session authentication" := by
  rintro ⟨r, hr, hm⟩
  simp only [sessionAuthMiddleware, List.mem_cons, Event.JSON.injEq, List.mem_singleton,
    reduceCtorEq, or_false, List.not_mem_nil] at hr
  rw [hr.2] at hm
  exact absurd hm (by decide)

/-- C4, amended.  Without a session username, or with an empty one,
`sessionAuthMiddleware` answers 401 with the envelope `error` true, message
`wrong session autentification`, result the empty string, then aborts, and
`Next` is not called; with a non-empty username it only calls `Next`. -/
theorem sessionAuthMiddleware_gate (context : Context) :
    ((context.username = none ∨ context.username = some []) →
      sessionAuthMiddleware context =
        [Event.JSON 401 ⟨true, ascii "wrong session autentification", some []⟩, Event.Abort]) ∧
    (∀ username, context.username = some username → username ≠ [] →
      sessionAuthMiddleware context = [Event.Next]) := by
  constructor
  · rintro (h | h) <;> simp [sessionAuthMiddleware, h, StatusUnauthorized]
  · intro username h hn
    have : username.length ≠ 0 := fun e => hn (List.length_eq_zero.mp e)
    simp [sessionAuthMiddleware, h, this]

/-- Witness of C4, amended: a request without a session, and one with the
session of `admin`. -/
theorem sessionAuthMiddleware_gate_witness :
    sessionAuthMiddleware ⟨⟨[], [], []⟩, none⟩ =
        [Event.JSON 401 ⟨true, ascii "wrong session autentification", some []⟩, Event.Abort] ∧
    sessionAuthMiddleware ⟨⟨[], [], []⟩, some (ascii "admin")⟩ = [Event.Next] :=
  ⟨(sessionAuthMiddleware_gate ⟨⟨[], [], []⟩, none⟩).1 (Or.inl rfl),
   (sessionAuthMiddleware_gate ⟨⟨[], [], []⟩, some (ascii "admin")⟩).2 _ rfl (by decide)⟩

/-! ## The catch-all route -/

/-- C6, as stated, fails: on a miss, the Content-Type `Application/JSON`, a
value other than `application/json`, gets the JSON envelope and not the root
document. -/
theorem NoRoute_content_type_case :
    ascii "Application/JSON" ≠ ascii "application/json" ∧
    NoRoute ⟨8080, false, false, [], [], [], [], []⟩ (fun _ => none) (fun _ => false) id
        ⟨⟨ascii "/unknown/page", [], ascii "Application/JSON"⟩, none⟩ =
      [Event.JSON 200 ⟨true, ascii "wrong uri", none⟩, Event.Abort] := by
  decide

/-- C6, amended.  On a miss (bundled mode: no entry under the key; live mode:
the cleaned path does not start with the root, or the file does not exist) the
status is 200 in both modes; when the Content-Type header, lower-cased by
`strings.ToLower`, is `application/json`, the body is the envelope with
`error` true and message `wrong uri`, written without a `result` field (bundled
mode also aborts); for every other value the root document `index.html` is
rendered. -/
theorem NoRoute_miss (config : Config) (files : Bytes → Option File)
    (FileExists : Bytes → Bool) (mapLower : Bytes → Bytes) (context : Context)
    (hmiss :
      (config.Devel = true ∧
        (HasPrefix (Clean (Join [Join [config.LibDir, ascii "public"], context.Request.Path]))
            (Join [config.LibDir, ascii "public"]) = false ∨
          FileExists (Clean (Join [Join [config.LibDir, ascii "public"], context.Request.Path]))
            = false)) ∨
      (config.Devel = false ∧ files (Join [ascii "/public", context.Request.Path]) = none)) :
    (ToLower mapLower context.Request.ContentType = ascii "application/json" →
      NoRoute config files FileExists mapLower context =
          Event.JSON 200 ⟨true, ascii "wrong uri", none⟩ ::
            (if config.Devel then [] else [Event.Abort]) ∧
        jsonFields ⟨true, ascii "wrong uri", none⟩ = ["error", "message"]) ∧
    (ToLower mapLower context.Request.ContentType ≠ ascii "application/json" →
      NoRoute config files FileExists mapLower context =
        [Event.HTML 200 (ascii "index.html")]) := by
  rcases hmiss with ⟨hd, h | h⟩ | ⟨hd, h⟩
  · constructor
    · intro hc
      exact ⟨by simp [NoRoute, hd, h, wrongUri, hc, StatusOK], rfl⟩
    · intro hc
      simp [NoRoute, hd, h, wrongUri, hc, StatusOK]
  · constructor
    · intro hc
      refine ⟨?_, rfl⟩
      by_cases hp : HasPrefix (Clean (Join [Join [config.LibDir, ascii "public"],
          context.Request.Path])) (Join [config.LibDir, ascii "public"]) = true
      · simp [NoRoute, hd, h, hp, wrongUri, hc, StatusOK]
      · simp [NoRoute, hd, hp, wrongUri, hc, StatusOK]
    · intro hc
      by_cases hp : HasPrefix (Clean (Join [Join [config.LibDir, ascii "public"],
          context.Request.Path])) (Join [config.LibDir, ascii "public"]) = true
      · simp [NoRoute, hd, h, hp, wrongUri, hc, StatusOK]
      · simp [NoRoute, hd, hp, wrongUri, hc, StatusOK]
  · constructor
    · intro hc
      exact ⟨by simp [NoRoute, hd, h, wrongUri, hc, StatusOK], rfl⟩
    · intro hc
      simp [NoRoute, hd, h, wrongUri, hc, StatusOK]

/-- Witness of C6, amended: bundled mode with an empty bundle, the path
`/unknown/page`, Content-Type `Application/JSON`. -/
theorem NoRoute_miss_witness :
    NoRoute ⟨8080, false, false, [], [], [], [], []⟩ (fun _ => none) (fun _ => false) id
        ⟨⟨ascii "/unknown/page", [], ascii "Application/JSON"⟩, none⟩ =
      Event.JSON 200 ⟨true, ascii "wrong uri", none⟩ :: [Event.Abort] :=
  ((NoRoute_miss ⟨8080, false, false, [], [], [], [], []⟩ (fun _ => none) (fun _ => false) id
    ⟨⟨ascii "/unknown/page", [], ascii "Application/JSON"⟩, none⟩ (Or.inr ⟨rfl, rfl⟩)).1
    (by decide)).1

/-- In bundled mode the key stays in `/public` as long as the URL path has no
`..` element. -/
theorem bundled_key_within_public (requestPath : Bytes)
    (h : [46, 46] ∉ elems requestPath) :
    Join [ascii "/public", requestPath] = ascii "/public" ∨
      (ascii "/public" ++ [47]) <+: Join [ascii "/public", requestPath] := by
  have hpub : IsName (ascii "public") := ⟨by decide, by decide, by decide, by decide⟩
  have hv : ValidState true 0 [ascii "public"] :=
    ⟨fun _ => rfl, fun x hx => by
      simp only [List.mem_singleton] at hx
      exact hx ▸ hpub⟩
  have hP : ascii "/public" = outOf true 0 [ascii "public"] := by decide
  rw [Join_pair _ _ (by decide), hP]
  obtain ⟨T, hT, hclean⟩ := Clean_append true 0 (ascii "public") [] hv requestPath h
  rw [hclean]
  exact outOf_append true 0 (ascii "public") [] hpub.1 T (fun t ht => (hT t ht).1)

/-- C10: in bundled mode the key that `NoRoute` looks up can leave `/public`:
for the path `/../secret.pem` it is `/secret.pem`, and an asset bundled under
that key is served. -/
theorem NoRoute_bundled_key_escapes :
    Join [ascii "/public", ascii "/../secret.pem"] = ascii "/secret.pem" ∧
    NoRoute ⟨8080, false, false, [], [], [], [], []⟩
        (fun key => if key = ascii "/secret.pem" then some ⟨key, ascii "key"⟩ else none)
        (fun _ => false) id ⟨⟨ascii "/../secret.pem", [], []⟩, none⟩ =
      [Event.ServeContent (ascii "/../secret.pem") ⟨ascii "/secret.pem", ascii "key"⟩] := by
  decide

/-- The prefix test of `NoRoute` alone does not confine the path: for the
library directory `/lib` and the URL path `/../public2/secret`, `filePath` is
`/lib/public2/secret`, it starts with `/lib/public`, and `NoRoute` passes it
to `context.File`; it is `ServeFile` that serves nothing for this URL path. -/
theorem NoRoute_sibling_reaches_File :
    NoRoute ⟨8080, false, true, [], ascii "/lib", [], [], []⟩ (fun _ => none) (fun _ => true) id
        ⟨⟨ascii "/../public2/secret", [], []⟩, none⟩ = [Event.File (ascii "/lib/public2/secret")] ∧
    servedFiles (ascii "/../public2/secret") [Event.File (ascii "/lib/public2/secret")] = [] := by
  decide

/-- C5: in live mode every file that `NoRoute` serves from disk is the public
root `Join(LibDir, "public")` itself or lies beneath it: its path is the root
followed by a slash and further elements.  In particular no file of a sibling
directory whose name starts with the name of the root is served. -/
theorem NoRoute_live_within_root (config : Config) (files : Bytes → Option File)
    (FileExists : Bytes → Bool) (mapLower : Bytes → Bytes) (context : Context) (served : Bytes)
    (hd : config.Devel = true)
    (hs : served ∈ servedFiles context.Request.Path
      (NoRoute config files FileExists mapLower context)) :
    served = Join [config.LibDir, ascii "public"] ∨
      (Join [config.LibDir, ascii "public"] ++ [47]) <+: served := by
  obtain ⟨rooted, k, ns, hv, hP⟩ := publicDir_shape config.LibDir
  have hpub : ascii "public" ≠ [] := by decide
  -- the only file handed to `context.File` is `filePath`, and only without `..`
  have hfile : served = Clean (Join [Join [config.LibDir, ascii "public"], context.Request.Path])
      ∧ containsDotDot context.Request.Path = false := by
    unfold NoRoute at hs
    simp only [hd, ↓reduceIte] at hs
    split at hs
    · unfold wrongUri at hs
      split at hs <;> simp [servedFiles] at hs
    · split at hs
      · unfold wrongUri at hs
        split at hs <;> simp [servedFiles] at hs
      · by_cases hc : containsDotDot context.Request.Path = true
        · simp [servedFiles, ServeFile, hc] at hs
        · simp only [servedFiles, ServeFile, hc, List.filterMap_cons, List.filterMap_nil,
            Bool.false_eq_true, ↓reduceIte, List.mem_singleton] at hs
          exact ⟨hs, by simpa using hc⟩
  obtain ⟨hserved, hdot⟩ := hfile
  have hR : [46, 46] ∉ elems context.Request.Path := by
    intro h
    rw [containsDotDot_of_elem _ h] at hdot
    exact absurd hdot (by simp)
  rw [hserved, hP]
  have hne := outOf_ne_nil rooted k (ascii "public") ns hpub
  rw [Join_pair _ _ hne]
  obtain ⟨T, hT, hclean⟩ := Clean_append rooted k (ascii "public") ns hv context.Request.Path hR
  rw [hclean]
  have hidem : Clean (outOf rooted k (T ++ ascii "public" :: ns)) =
      outOf rooted k (T ++ ascii "public" :: ns) := by
    have hvT : ValidState rooted k (T ++ ascii "public" :: ns) :=
      ⟨hv.1, fun x hx => by
        simp only [List.mem_append] at hx
        rcases hx with hx | hx
        · exact hT x hx
        · exact hv.2 x hx⟩
    cases hTs : T with
    | nil => exact Clean_outOf rooted k _ ns hv
    | cons x xs =>
      rw [hTs] at hvT
      exact Clean_outOf rooted k x (xs ++ ascii "public" :: ns) hvT
  rw [hidem]
  exact outOf_append rooted k (ascii "public") ns hpub T (fun t ht => (hT t ht).1)

/-- Witness of C5: with the library directory `/lib` and an existing file, the
request for `/css/site.css` is served from `/lib/public/css/site.css`. -/
theorem NoRoute_live_within_root_witness :
    ascii "/lib/public/css/site.css" = Join [ascii "/lib", ascii "public"] ∨
      (Join [ascii "/lib", ascii "public"] ++ [47]) <+: ascii "/lib/public/css/site.css" :=
  NoRoute_live_within_root ⟨8080, false, true, [], ascii "/lib", [], [], []⟩ (fun _ => none)
    (fun _ => true) id ⟨⟨ascii "/css/site.css", [], []⟩, none⟩ (ascii "/lib/public/css/site.css")
    rfl (by decide)

/-! ## Start -/

/-- C8: the short flags do not all have the effect of their long forms, and
the configured Debug is lost.  With Debug and Devel false in the
configuration, `-devel` sets Devel but `-e` sets Debug and leaves Devel false;
with Debug true in the configuration and no flag at all, Debug ends false. -/
theorem flagConfig_short_flags :
    flagConfig (fun _ => none) ⟨8080, false, false, [], [], [], [], []⟩ [ascii "-devel"] =
      some ⟨8080, false, true, [], [], [], [], []⟩ ∧
    flagConfig (fun _ => none) ⟨8080, false, false, [], [], [], [], []⟩ [ascii "-e"] =
      some ⟨8080, true, false, [], [], [], [], []⟩ ∧
    flagConfig (fun _ => none) ⟨8080, true, false, [], [], [], [], []⟩ [] =
      some ⟨8080, false, false, [], [], [], [], []⟩ := by
  decide

theorem mem_orExit_Run (name : String) (err : GoError) (k : List StartEvent) (config : Config)
    (creds : Creds) :
    StartEvent.Run config creds ∈ orExit name err k ↔
      err = none ∧ StartEvent.Run config creds ∈ k := by
  cases err <;> simp [orExit]

theorem mem_orExit_Setuid (name : String) (err : GoError) (k : List StartEvent) (uid : Int)
    (e : GoError) :
    StartEvent.Setuid uid e ∈ orExit name err k ↔
      err = none ∧ StartEvent.Setuid uid e ∈ k := by
  cases err <;> simp [orExit]

theorem mem_orExit_Getuid (name : String) (err : GoError) (k : List StartEvent) (uid : Int) :
    StartEvent.Getuid uid ∈ orExit name err k ↔
      err = none ∧ StartEvent.Getuid uid ∈ k := by
  cases err <;> simp [orExit]

theorem mem_orExit_Exit (name : String) (err : GoError) (k : List StartEvent) :
    StartEvent.Exit 1 ∈ orExit name err k ↔
      err ≠ none ∨ StartEvent.Exit 1 ∈ k := by
  cases err <;> simp [orExit]

theorem not_mem_startServe_Setuid (w : World) (config : Config) (fg : Bool) (creds : Creds)
    (uid : Int) (e : GoError) : StartEvent.Setuid uid e ∉ startServe w config fg creds := by
  unfold startServe
  cases fg <;> cases w.Run config <;> simp [mem_orExit_Setuid]

theorem not_mem_startServe_Getuid (w : World) (config : Config) (fg : Bool) (creds : Creds)
    (uid : Int) : StartEvent.Getuid uid ∉ startServe w config fg creds := by
  unfold startServe
  cases fg <;> cases w.Run config <;> simp [mem_orExit_Getuid]

theorem mem_startServe_Run (w : World) (config : Config) (fg : Bool) (creds : Creds)
    (config2 : Config) (creds2 : Creds)
    (h : StartEvent.Run config2 creds2 ∈ startServe w config fg creds) : creds2 = creds := by
  unfold startServe at h
  cases fg <;> cases hr : w.Run config <;> simp [mem_orExit_Run, hr] at h <;>
    first | exact h.2.2.2 | exact h.2.2

/-- C7, as stated, fails.  In a world where every call succeeds and the
account has uid 1000 and gid 1000, `Start` calls `Run` with the real and
effective gid still 0: the group is not dropped.  In the same world with an
account whose `Uid` is not a number, `Atoi` fails, and `Start` calls `Run`
with the credentials unchanged and without exiting. -/
theorem Start_keeps_group :
    (StartEvent.Run (calmWorld (ascii "1000")).Read ⟨1000, 1000, 0, 0⟩ ∈
        Start (calmWorld (ascii "1000")) ∧
      ¬ DroppedTo ⟨1000, 1000, 0, 0⟩ 1000 1000) ∧
    ((Atoi (ascii "S-1-5-18")).2 ≠ none ∧
      StartEvent.Run (calmWorld (ascii "S-1-5-18")).Read ⟨0, 0, 0, 0⟩ ∈
        Start (calmWorld (ascii "S-1-5-18")) ∧
      ∀ code, StartEvent.Exit code ∉ Start (calmWorld (ascii "S-1-5-18"))) := by
  refine ⟨⟨by decide, by simp [DroppedTo]⟩, by decide, by decide, ?_⟩
  intro code
  have e : Start (calmWorld (ascii "S-1-5-18")) =
      [StartEvent.Call "user.Lookup" none, StartEvent.Call "os.MkdirAll" none,
       StartEvent.Call "daemon.SaveProcessID" none, StartEvent.Call "os.MkdirAll" none,
       StartEvent.Call "os.Chown" none, StartEvent.Call "os.MkdirAll" none,
       StartEvent.Call "os.Chown" none, StartEvent.Call "os.Stat" none,
       StartEvent.Call "daemon.RedirectLog" none,
       StartEvent.Run (calmWorld (ascii "S-1-5-18")).Read ⟨0, 0, 0, 0⟩] := by decide
  rw [e]
  simp

/-- C7, amended.  For every outcome of the calls: when the configured user
resolves to an account whose `Uid` parses to a non-zero number and `Start`
calls `Run`, then `Setuid` was called with that uid and returned no error, the
check after it found the real uid of the process (`Getuid`) equal to the uid,
and `Run` is called with the credentials that `Setuid` left; when `Setuid`
fails or the check finds another uid, `Start` exits with status 1 and `Run`
is not called. -/
theorem Start_privilege_drop (w : World) (user : User) (uid : Int)
    (hl : w.Lookup w.Read.User = some user) (ha : Atoi user.Uid = (uid, none))
    (h0 : uid ≠ 0) :
    (∀ config creds, StartEvent.Run config creds ∈ Start w →
      w.Setuid w.creds uid = (none, creds) ∧ creds.uid = uid ∧
        StartEvent.Setuid uid none ∈ Start w ∧ StartEvent.Getuid uid ∈ Start w) ∧
    (((∃ err, StartEvent.Setuid uid (some err) ∈ Start w) ∨
        (∃ v, v ≠ uid ∧ StartEvent.Getuid v ∈ Start w)) →
      StartEvent.Exit 1 ∈ Start w ∧ ∀ config creds, StartEvent.Run config creds ∉ Start w) := by
  unfold Start flagConfig
  cases hpf : parseFlags w.ParseInt w.Read w.args with
  | none => simp
  | some opt =>
    simp only [Option.map_some']
    by_cases hw : opt.optWrite = true
    · cases hwr : w.Write <;> simp [hw, hwr]
    · cases hf : (if (!opt.optForeground) = true then w.ForkProcess else none) with
      | some code => simp [hw, hf]
      | none =>
        cases hs : w.Setuid w.creds uid with
        | mk err creds =>
          have huid : (Atoi user.Uid).1 = uid := by rw [ha]
          cases err with
          | some e =>
            simp [hw, hf, hl, huid, h0, hs, mem_orExit_Run, mem_orExit_Setuid,
              mem_orExit_Getuid, mem_orExit_Exit]
          | none =>
            by_cases hc : creds.uid = uid
            · simp [hw, hf, hl, huid, h0, hs, hc, mem_orExit_Run, mem_orExit_Setuid,
                mem_orExit_Getuid, mem_orExit_Exit, not_mem_startServe_Setuid,
                not_mem_startServe_Getuid]
              constructor
              · intro config creds1 h1 h2 h3 h4 h5 h6 h7 hrun
                have e := mem_startServe_Run _ _ _ _ _ _ hrun
                subst e
                exact ⟨rfl, hc, h1, h2, h3, h4, h5, h6, h7⟩
              · intro x hx _ _ _ _ _ _ _ hx2
                exact absurd hx2 hx
            · simp [hw, hf, hl, huid, h0, hs, hc, mem_orExit_Run, mem_orExit_Setuid,
                mem_orExit_Getuid, mem_orExit_Exit]

/-- Witness of C7, amended: the world in which every call succeeds, with the
account 1000:1000; `Run` is called with the credentials 1000, 1000, 0, 0. -/
theorem Start_privilege_drop_witness :
    (calmWorld (ascii "1000")).Setuid (calmWorld (ascii "1000")).creds 1000 =
        (none, ⟨1000, 1000, 0, 0⟩) ∧
      (⟨1000, 1000, 0, 0⟩ : Creds).uid = 1000 ∧
      StartEvent.Setuid 1000 none ∈ Start (calmWorld (ascii "1000")) ∧
      StartEvent.Getuid 1000 ∈ Start (calmWorld (ascii "1000")) :=
  (Start_privilege_drop (calmWorld (ascii "1000")) ⟨ascii "1000", ascii "1000"⟩ 1000 rfl
    (by decide) (by decide)).1 (calmWorld (ascii "1000")).Read ⟨1000, 1000, 0, 0⟩ (by decide)


end Server
